import Mathlib

/-!
# Verification of bzip2rs against its specification

Shallow embedding of the bzip2rs command-line front end (src/cli.rs,
src/main.rs, src/bzip2.rs) and, for the compression engine that the
repository delegates to external crates, a codec modelled from the
specification. Theorems check the specification's claims against these
definitions.
-/

/-! ## Basic data -/

/-- A byte string, each entry intended to be `< 256`. -/
abbrev Bytes := List Nat

/-- An I/O error surfaced by the runtime or the external engine.
Modelled as its message, since `std::io::Error` is opaque to this crate. -/
abbrev IoError := String

/-! ## `src/cli.rs`: the parsed command line -/

/-- Embedding of `struct Bzip2Cli` (src/cli.rs lines 7-38).
`u8` fields become `Nat`; `Vec<String>` becomes `List String`. -/
structure Bzip2Cli where
  decompress : Bool
  compress : Bool
  keep : Bool
  force : Bool
  test : Bool
  stdout : Bool
  quiet : Bool
  verbose : Nat
  license : Bool
  version : Bool
  small : Bool
  block_size : Option Nat
  fast : Bool
  best : Bool
  input_files : List String
deriving Repr

/-- Embedding of `enum Mode` (src/cli.rs lines 40-44). -/
inductive Mode where
  | Compress
  | Decompress
  | Test
deriving DecidableEq, Repr

/-- `Bzip2Cli::is_stdout` (src/cli.rs lines 84-86). -/
def Bzip2Cli.is_stdout (cli : Bzip2Cli) (program_name : String) : Bool :=
  cli.stdout || program_name == "bzcat"

/-- `Bzip2Cli::compress_level` (src/cli.rs lines 88-98). -/
def Bzip2Cli.compress_level (cli : Bzip2Cli) : Nat :=
  if cli.fast then 1
  else if cli.best then 9
  else match cli.block_size with
    | some level => level
    | none => 6

/-- `str::ends_with` on file names, embedded at the character-list level
(Rust compares the raw bytes of the suffix). -/
def ends_with (s suffix : String) : Bool :=
  List.isSuffixOf suffix.data s.data

/-- `str::strip_suffix(".bz2").unwrap()`: drop the final 4 characters
(the suffix is ASCII, so characters coincide with bytes). -/
def strip_bz2 (f : String) : String :=
  ⟨f.data.take (f.data.length - 4)⟩

/-- The suffix test from `Bzip2Cli::mode` (src/cli.rs line 105):
`f.ends_with(".bz2") || f.ends_with(".tbz2") || f.ends_with(".tbz") || f.ends_with(".tz2")`. -/
def hasCompressedSuffix (f : String) : Bool :=
  ends_with f ".bz2" || ends_with f ".tbz2" || ends_with f ".tbz" || ends_with f ".tz2"

/-- `Bzip2Cli::mode` (src/cli.rs lines 100-110). -/
def Bzip2Cli.mode (cli : Bzip2Cli) (program_name : String) : Mode :=
  if cli.decompress || program_name == "bunzip2" || program_name == "bzcat" then
    Mode.Decompress
  else if cli.test then
    Mode.Test
  else if cli.input_files.all (fun f => hasCompressedSuffix f) then
    Mode.Decompress
  else
    Mode.Compress

/-! ## `src/main.rs`: error type and file-processing flow -/

/-- Embedding of `enum Error` (src/main.rs lines 10-17). -/
inductive Error where
  | Array (errs : List Error)
  | Io (e : IoError)
  | CannotWriteToStdout
  | CannotGuessOriginalName (name : String)
  | FileExists (file : String)
  | InvalidInput (msg : String)

/-- The constructor name of an `Error` value, used to compare the code's
error vocabulary with the specification's. -/
def Error.kindName : Error → String
  | .Array _ => "Array"
  | .Io _ => "Io"
  | .CannotWriteToStdout => "CannotWriteToStdout"
  | .CannotGuessOriginalName _ => "CannotGuessOriginalName"
  | .FileExists _ => "FileExists"
  | .InvalidInput _ => "InvalidInput"

/-- `Error::error_or` (src/main.rs lines 38-46). -/
def Error.error_or (errs : List Error) : Except Error Unit :=
  match errs with
  | [] => Except.ok ()
  | [e] => Except.error e
  | es => Except.error (Error.Array es)

/-! ### The filesystem and stdout, as observable state

`main.rs` interacts with the world through `File::open`, `File::create`,
`fs::remove_file`, `Path::exists`, stdin and stdout. We model the
filesystem as an association list from names to contents and stdout as
the list of chunks written to it. -/

def lookupFile (fs : List (String × Bytes)) (name : String) : Option Bytes :=
  match fs with
  | [] => none
  | (k, v) :: rest => if k = name then some v else lookupFile rest name

def eraseFile (fs : List (String × Bytes)) (name : String) : List (String × Bytes) :=
  fs.filter (fun p => p.1 ≠ name)

/-- Create-or-truncate: `File::create` semantics on the model. -/
def setFile (fs : List (String × Bytes)) (name : String) (v : Bytes) : List (String × Bytes) :=
  (name, v) :: eraseFile fs name

/-- Observable state: the filesystem plus the chunks written to stdout. -/
structure Sys where
  fs : List (String × Bytes)
  out : List Bytes
deriving Repr

/-- The externally supplied compression engine, as seen by `main.rs`: a
whole-stream transformation that may fail with an I/O error. The actual
engine (`bzip2_rs` / `banzai` / `libbzip2`) lives outside this repository,
so the CLI flow is verified for an arbitrary engine. -/
abbrev Engine := Bytes → Except IoError Bytes

/-- `decompress_each` (src/main.rs lines 49-75): open the input, decompress
to stdout or to a freshly created `dest`, record errors, and finally —
unconditionally, unless `-k` — delete the input file.
`File::create` is modelled as always succeeding (creating/truncating). -/
def decompress_each (eng : Engine) (file dest : String) (errs : List Error)
    (cli : Bzip2Cli) (program_name : String) (s : Sys) : Sys × List Error :=
  let step :=
    match lookupFile s.fs file with
    | some content =>
      if cli.is_stdout program_name then
        match eng content with
        | Except.ok outB => ({ s with out := s.out ++ [outB] }, errs)
        | Except.error e => (s, errs ++ [Error.Io e])
      else
        let sCreated : Sys := { s with fs := setFile s.fs dest [] }
        match eng content with
        | Except.ok outB => ({ sCreated with fs := setFile sCreated.fs dest outB }, errs)
        | Except.error e => (sCreated, errs ++ [Error.Io e])
    | none => (s, errs ++ [Error.Io "open: no such file"])
  let s1 := step.1
  let errs1 := step.2
  if cli.keep then (s1, errs1)
  else match lookupFile s1.fs file with
    | some _ => ({ s1 with fs := eraseFile s1.fs file }, errs1)
    | none => (s1, errs1 ++ [Error.Io "remove: no such file"])

/-- One iteration of the loop in `perform_decompress` (src/main.rs lines 80-93):
suffix check, destination-exists check, then `decompress_each`. -/
def decompressStep (eng : Engine) (cli : Bzip2Cli) (program_name : String)
    (acc : Sys × List Error) (file : String) : Sys × List Error :=
  if !(ends_with file ".bz2") then
    (acc.1, acc.2 ++ [Error.CannotGuessOriginalName file])
  else
    let dest := strip_bz2 file
    if !cli.force && (lookupFile acc.1.fs dest).isSome then
      (acc.1, acc.2 ++ [Error.FileExists dest])
    else
      decompress_each eng file dest acc.2 cli program_name acc.1

/-- `perform_decompress` (src/main.rs lines 77-106). `stdinData` models the
bytes available on standard input. -/
def perform_decompress (eng : Engine) (cli : Bzip2Cli) (program_name : String)
    (stdinData : Bytes) (s : Sys) : Sys × Except Error Unit :=
  let loop := cli.input_files.foldl (decompressStep eng cli program_name) (s, [])
  let final :=
    if cli.input_files.isEmpty then
      if cli.is_stdout program_name then
        match eng stdinData with
        | Except.ok outB => ({ loop.1 with out := loop.1.out ++ [outB] }, loop.2)
        | Except.error e => (loop.1, loop.2 ++ [Error.Io e])
      else (loop.1, loop.2 ++ [Error.CannotWriteToStdout])
    else loop
  (final.1, Error.error_or final.2)

/-- `compress` (the per-file helper, src/main.rs lines 108-134): open the
input, compress to stdout or to a freshly created `dest`, record errors,
then — unconditionally, unless `-k` — delete the input file. -/
def compress (eng : Engine) (file dest : String) (errs : List Error)
    (cli : Bzip2Cli) (s : Sys) : Sys × List Error :=
  let step :=
    match lookupFile s.fs file with
    | some content =>
      if cli.stdout then
        match eng content with
        | Except.ok outB => ({ s with out := s.out ++ [outB] }, errs)
        | Except.error e => (s, errs ++ [Error.Io e])
      else
        let sCreated : Sys := { s with fs := setFile s.fs dest [] }
        match eng content with
        | Except.ok outB => ({ sCreated with fs := setFile sCreated.fs dest outB }, errs)
        | Except.error e => (sCreated, errs ++ [Error.Io e])
    | none => (s, errs ++ [Error.Io "open: no such file"])
  let s1 := step.1
  let errs1 := step.2
  if cli.keep then (s1, errs1)
  else match lookupFile s1.fs file with
    | some _ => ({ s1 with fs := eraseFile s1.fs file }, errs1)
    | none => (s1, errs1 ++ [Error.Io "remove: no such file"])

/-- One iteration of the loop in `perform_compress` (src/main.rs lines 139-151):
reject inputs that already carry the `.bz2` suffix, check the destination,
then call the per-file `compress` helper. -/
def compressStep (eng : Engine) (cli : Bzip2Cli)
    (acc : Sys × List Error) (file : String) : Sys × List Error :=
  if ends_with file ".bz2" then
    (acc.1, acc.2 ++ [Error.InvalidInput ("bzip2: Input file " ++ file ++ " already has .bz2 suffix.")])
  else
    let dest := file ++ ".bz2"
    if !cli.force && (lookupFile acc.1.fs dest).isSome then
      (acc.1, acc.2 ++ [Error.FileExists dest])
    else
      compress eng file dest acc.2 cli acc.1

/-- `perform_compress` (src/main.rs lines 136-163). -/
def perform_compress (eng : Engine) (cli : Bzip2Cli)
    (stdinData : Bytes) (s : Sys) : Sys × Except Error Unit :=
  let loop := cli.input_files.foldl (compressStep eng cli) (s, [])
  let final :=
    if cli.input_files.isEmpty then
      if cli.stdout then
        match eng stdinData with
        | Except.ok outB => ({ loop.1 with out := loop.1.out ++ [outB] }, loop.2)
        | Except.error e => (loop.1, loop.2 ++ [Error.Io e])
      else (loop.1, loop.2 ++ [Error.CannotWriteToStdout])
    else loop
  (final.1, Error.error_or final.2)

/-! ## `src/bzip2.rs`: the engine wrappers

`pure_rust::test_integrity`, `pure_rust::decompress` and
`pure_rust::compress` pipe the stream through the external crate and wrap
any failure in `Error::Io`. The external decoder/encoder outcome (the
result of `std::io::copy` / `banzai::encode`) is the argument. -/

namespace pure_rust

/-- `pure_rust::test_integrity` (src/bzip2.rs lines 82-88). -/
def test_integrity (copyResult : Except IoError Nat) : Except Error Nat :=
  match copyResult with
  | Except.ok bytes => Except.ok bytes
  | Except.error e => Except.error (Error.Io e)

/-- `pure_rust::decompress` (src/bzip2.rs lines 90-96). -/
def decompress (copyResult : Except IoError Nat) : Except Error Nat :=
  match copyResult with
  | Except.ok bytes => Except.ok bytes
  | Except.error e => Except.error (Error.Io e)

/-- `pure_rust::compress` (src/bzip2.rs lines 98-106). -/
def compress (encodeResult : Except IoError Nat) : Except Error Nat :=
  match encodeResult with
  | Except.ok bytes => Except.ok bytes
  | Except.error e => Except.error (Error.Io e)

end pure_rust

/-! ## Helper lemmas about the filesystem model -/

theorem lookupFile_eraseFile_self (fs : List (String × Bytes)) (n : String) :
    lookupFile (eraseFile fs n) n = none := by
  induction fs with
  | nil => rfl
  | cons p rest ih =>
    by_cases h : p.1 = n
    · simpa [eraseFile, List.filter, h] using ih
    · simpa [eraseFile, List.filter, h, lookupFile] using ih

theorem lookupFile_eraseFile_ne (fs : List (String × Bytes)) (n m : String) (h : m ≠ n) :
    lookupFile (eraseFile fs n) m = lookupFile fs m := by
  induction fs with
  | nil => rfl
  | cons p rest ih =>
    obtain ⟨k, v⟩ := p
    by_cases hk : k = n
    · have e1 : eraseFile ((k, v) :: rest) n = eraseFile rest n := by
        simp [eraseFile, List.filter_cons, hk]
      have e2 : lookupFile ((k, v) :: rest) m = lookupFile rest m := by
        simp only [lookupFile]
        rw [if_neg (by rw [hk]; exact fun hh => h hh.symm)]
      rw [e1, ih, e2]
    · have e1 : eraseFile ((k, v) :: rest) n = (k, v) :: eraseFile rest n := by
        simp [eraseFile, List.filter_cons, hk]
      rw [e1]
      by_cases hkm : k = m
      · simp [lookupFile, hkm]
      · simp [lookupFile, hkm, ih]

theorem lookupFile_setFile_self (fs : List (String × Bytes)) (n : String) (v : Bytes) :
    lookupFile (setFile fs n v) n = some v := by
  simp [setFile, lookupFile]

theorem lookupFile_setFile_ne (fs : List (String × Bytes)) (n m : String) (v : Bytes)
    (h : m ≠ n) : lookupFile (setFile fs n v) m = lookupFile fs m := by
  simp only [setFile, lookupFile]
  rw [if_neg (fun hh => h hh.symm), lookupFile_eraseFile_ne fs n m h]

/-- A fully defaulted command line: every flag off, no block size, no files. -/
def defaultCli : Bzip2Cli :=
  ⟨false, false, false, false, false, false, false, 0, false, false, false, none, false, false, []⟩

/-! ## Claims about `cli.rs` -/

/-- C3 (counterexample): `compress_level()` is NOT always in `1..=9`: with
`--block-size 0` (and no `--fast`/`--best`) the parsed command line yields
level 0, because the explicit block-size value is returned unchecked. -/
theorem C3_counterexample :
    Bzip2Cli.compress_level { defaultCli with block_size := some 0 } = 0 ∧
    ¬(1 ≤ Bzip2Cli.compress_level { defaultCli with block_size := some 0 } ∧
      Bzip2Cli.compress_level { defaultCli with block_size := some 0 } ≤ 9) := by
  constructor
  · rfl
  · decide

/-- C3 (amended): `compress_level()` returns 1 under `--fast`, else 9 under
`--best`, else an explicit `--block-size` value unchecked, else 6; it lies
in `1..=9` whenever any explicit block-size value does. -/
theorem C3_compress_level (cli : Bzip2Cli)
    (h : ∀ v, cli.block_size = some v → 1 ≤ v ∧ v ≤ 9) :
    (1 ≤ cli.compress_level ∧ cli.compress_level ≤ 9) ∧
    (cli.fast = true → cli.compress_level = 1) ∧
    (cli.fast = false → cli.best = true → cli.compress_level = 9) ∧
    (cli.fast = false → cli.best = false →
      ∀ v, cli.block_size = some v → cli.compress_level = v) ∧
    (cli.fast = false → cli.best = false → cli.block_size = none →
      cli.compress_level = 6) := by
  cases hf : cli.fast <;> cases hb : cli.best <;> cases hbs : cli.block_size <;>
    simp_all [Bzip2Cli.compress_level]

/-- C3 witness: at a defaulted command line (no block size given) the level
is 6, inside `1..=9`. -/
theorem C3_compress_level_witness :
    (1 ≤ defaultCli.compress_level ∧ defaultCli.compress_level ≤ 9) ∧
    (defaultCli.fast = true → defaultCli.compress_level = 1) ∧
    (defaultCli.fast = false → defaultCli.best = true → defaultCli.compress_level = 9) ∧
    (defaultCli.fast = false → defaultCli.best = false →
      ∀ v, defaultCli.block_size = some v → defaultCli.compress_level = v) ∧
    (defaultCli.fast = false → defaultCli.best = false → defaultCli.block_size = none →
      defaultCli.compress_level = 6) :=
  C3_compress_level defaultCli (by intro v hv; cases hv)

/-- C4: `-d`/`--decompress`, or being invoked as `bunzip2` or `bzcat`,
selects `Decompress`, taking precedence over `-t`; failing those, `-t`
selects `Test`. -/
theorem C4_mode_selection (cli : Bzip2Cli) (pname : String) :
    ((cli.decompress = true ∨ pname = "bunzip2" ∨ pname = "bzcat") →
      cli.mode pname = Mode.Decompress) ∧
    (cli.decompress = false → pname ≠ "bunzip2" → pname ≠ "bzcat" → cli.test = true →
      cli.mode pname = Mode.Test) := by
  constructor
  · intro h
    rcases h with h | h | h <;> simp [Bzip2Cli.mode, h]
  · intro h1 h2 h3 h4
    simp [Bzip2Cli.mode, h1, h2, h3, h4]

/-- C4 witness: under program name `bunzip2` with `-t` also set, the mode is
`Decompress`; with plain name and `-t`, the mode is `Test`. -/
theorem C4_mode_selection_witness :
    Bzip2Cli.mode { defaultCli with test := true } "bunzip2" = Mode.Decompress ∧
    Bzip2Cli.mode { defaultCli with test := true } "bzip2rs" = Mode.Test :=
  ⟨(C4_mode_selection { defaultCli with test := true } "bunzip2").1 (Or.inr (Or.inl rfl)),
   (C4_mode_selection { defaultCli with test := true } "bzip2rs").2 rfl
     (by decide) (by decide) rfl⟩

/-- C9: the `-z`/`--compress` flag is never read by `mode()`: toggling it
changes nothing, and with only `.bz2` inputs the mode stays `Decompress`
even under `-z`. -/
theorem C9_compress_flag_inert (cli : Bzip2Cli) (pname : String) (z : Bool) :
    Bzip2Cli.mode { cli with compress := z } pname = cli.mode pname ∧
    (cli.decompress = false → pname ≠ "bunzip2" → pname ≠ "bzcat" → cli.test = false →
      cli.input_files.all hasCompressedSuffix = true →
      Bzip2Cli.mode { cli with compress := true } pname = Mode.Decompress) := by
  constructor
  · rfl
  · intro h1 h2 h3 h4 h5
    simp [Bzip2Cli.mode, h1, h2, h3, h4, h5]

/-- C9 witness: `-z` on an input list consisting of `a.bz2` still selects
`Decompress`. -/
theorem C9_compress_flag_inert_witness :
    Bzip2Cli.mode { { defaultCli with input_files := ["a.bz2"] } with compress := true }
      "bzip2rs" = Mode.Decompress :=
  (C9_compress_flag_inert { defaultCli with input_files := ["a.bz2"] } "bzip2rs" true).2
    rfl (by decide) (by decide) rfl (by decide)

/-- C10: with no input files, no `-d`, no `-t` and an ordinary program name,
`mode()` returns `Decompress` — the all-suffixes test is vacuously true on
the empty list. -/
theorem C10_empty_files_decompress (cli : Bzip2Cli) (pname : String)
    (h1 : cli.decompress = false) (h2 : cli.test = false)
    (h3 : pname ≠ "bunzip2") (h4 : pname ≠ "bzcat")
    (h5 : cli.input_files = []) :
    cli.mode pname = Mode.Decompress := by
  simp [Bzip2Cli.mode, h1, h2, h3, h4, h5]

/-- C10 witness: the defaulted command line under program name `bzip2rs`. -/
theorem C10_empty_files_decompress_witness :
    defaultCli.mode "bzip2rs" = Mode.Decompress :=
  C10_empty_files_decompress defaultCli "bzip2rs" rfl rfl (by decide) (by decide) rfl

/-! ## Claim about the error vocabulary (`src/bzip2.rs`, `src/main.rs`) -/

/-- C6 (counterexample): a decoder failure surfaces as the repository's
`Error::Io` kind, which is none of the five kinds named by the claim
(`TruncatedStream`, `InvalidBlock`, `InvalidCode`, `CrcMismatch`,
`CorruptData`); those are not constructors of this repository's `Error`. -/
theorem C6_counterexample :
    pure_rust.test_integrity (Except.error "unexpected end of file") =
      Except.error (Error.Io "unexpected end of file") ∧
    (Error.Io "unexpected end of file").kindName ∉
      ["TruncatedStream", "InvalidBlock", "InvalidCode", "CrcMismatch", "CorruptData"] := by
  exact ⟨rfl, by decide⟩

/-- C6 (amended): every failure reported by decompression or integrity
testing is surfaced as `Error::Io` wrapping the engine's error — the
single kind `Io`, not the five codec-level kinds — and the wrapper returns
it terminally, with no retry. -/
theorem C6_failures_are_io (e : IoError) :
    pure_rust.test_integrity (Except.error e) = Except.error (Error.Io e) ∧
    pure_rust.decompress (Except.error e) = Except.error (Error.Io e) ∧
    (Error.Io e).kindName = "Io" :=
  ⟨rfl, rfl, rfl⟩

/-! ## Claims about the `main.rs` file-processing flow -/

/-- C7: with an empty input file list and no `-c` (and, for decompression,
a program name other than `bzcat`), nothing is written to stdout and the
run fails with `CannotWriteToStdout`. -/
theorem C7_stdout_guard (eng : Engine) (cli : Bzip2Cli) (pname : String)
    (stdinData : Bytes) (s : Sys)
    (h1 : cli.input_files = []) (h2 : cli.stdout = false) (h3 : pname ≠ "bzcat") :
    (perform_compress eng cli stdinData s).2 = Except.error Error.CannotWriteToStdout ∧
    (perform_compress eng cli stdinData s).1.out = s.out ∧
    (perform_decompress eng cli pname stdinData s).2 = Except.error Error.CannotWriteToStdout ∧
    (perform_decompress eng cli pname stdinData s).1.out = s.out := by
  have hstd : cli.is_stdout pname = false := by
    simp [Bzip2Cli.is_stdout, h2, h3]
  simp [perform_compress, perform_decompress, h1, h2, hstd, Error.error_or]

/-- C7 witness: the defaulted command line on an empty state. -/
theorem C7_stdout_guard_witness :
    (perform_compress (fun b => Except.ok b) defaultCli [] ⟨[], []⟩).2 =
      Except.error Error.CannotWriteToStdout ∧
    (perform_compress (fun b => Except.ok b) defaultCli [] ⟨[], []⟩).1.out = (⟨[], []⟩ : Sys).out ∧
    (perform_decompress (fun b => Except.ok b) defaultCli "bzip2rs" [] ⟨[], []⟩).2 =
      Except.error Error.CannotWriteToStdout ∧
    (perform_decompress (fun b => Except.ok b) defaultCli "bzip2rs" [] ⟨[], []⟩).1.out =
      (⟨[], []⟩ : Sys).out :=
  C7_stdout_guard (fun b => Except.ok b) defaultCli "bzip2rs" [] ⟨[], []⟩ rfl rfl (by decide)

/-- C5: suffix handling. (1) With no forcing flag or special program name,
the mode is `Decompress` exactly when every input carries one of the
suffixes `.bz2`/`.tbz2`/`.tbz`/`.tz2`, else `Compress`; (2) compression
rejects a file already ending in `.bz2` with the "already has .bz2 suffix"
error and skips it; (3) decompression of a file without `.bz2` records
`CannotGuessOriginalName` and skips it; (4) a `.bz2` file decompresses
toward the suffix-stripped name; (5) on success the stripped destination
holds the decompressed bytes. -/
theorem C5_suffix_handling :
    (∀ (cli : Bzip2Cli) (pname : String),
      cli.decompress = false → pname ≠ "bunzip2" → pname ≠ "bzcat" → cli.test = false →
      ((cli.mode pname = Mode.Decompress ↔ cli.input_files.all hasCompressedSuffix = true) ∧
       (cli.mode pname = Mode.Compress ↔ cli.input_files.all hasCompressedSuffix = false))) ∧
    (∀ (eng : Engine) (cli : Bzip2Cli) (acc : Sys × List Error) (file : String),
      ends_with file ".bz2" = true →
      compressStep eng cli acc file =
        (acc.1, acc.2 ++
          [Error.InvalidInput ("bzip2: Input file " ++ file ++ " already has .bz2 suffix.")])) ∧
    (∀ (eng : Engine) (cli : Bzip2Cli) (pname : String) (acc : Sys × List Error) (file : String),
      ends_with file ".bz2" = false →
      decompressStep eng cli pname acc file =
        (acc.1, acc.2 ++ [Error.CannotGuessOriginalName file])) ∧
    (∀ (eng : Engine) (cli : Bzip2Cli) (pname : String) (acc : Sys × List Error) (file : String),
      ends_with file ".bz2" = true →
      (cli.force = true ∨ lookupFile acc.1.fs (strip_bz2 file) = none) →
      decompressStep eng cli pname acc file =
        decompress_each eng file (strip_bz2 file) acc.2 cli pname acc.1) ∧
    (∀ (eng : Engine) (file dest : String) (errs : List Error) (cli : Bzip2Cli)
        (pname : String) (s : Sys) (content outB : Bytes),
      cli.is_stdout pname = false →
      lookupFile s.fs file = some content → eng content = Except.ok outB → dest ≠ file →
      lookupFile (decompress_each eng file dest errs cli pname s).1.fs dest = some outB) := by
  refine ⟨?_, ?_, ?_, ?_, ?_⟩
  · intro cli pname h1 h2 h3 h4
    cases hall : cli.input_files.all hasCompressedSuffix <;>
      simp [Bzip2Cli.mode, h1, h2, h3, h4, hall]
  · intro eng cli acc file h
    simp [compressStep, h]
  · intro eng cli pname acc file h
    simp [decompressStep, h]
  · intro eng cli pname acc file h hskip
    rcases hskip with hf | hl
    · simp [decompressStep, h, hf]
    · simp [decompressStep, h, hl]
  · intro eng file dest errs cli pname s content outB hstd hlook heng hne
    simp only [decompress_each, hlook, hstd, heng, Bool.false_eq_true, if_false]
    cases hk : cli.keep
    · simp only [Bool.false_eq_true, if_false]
      split
      · rw [lookupFile_eraseFile_ne _ _ _ hne, lookupFile_setFile_self]
      · rw [lookupFile_setFile_self]
    · simp only [if_true]
      rw [lookupFile_setFile_self]

/-- C5 witness: a non-`.bz2` input is skipped with `CannotGuessOriginalName`;
a `.bz2` input is rejected by compression with the "already has .bz2
suffix" message. -/
theorem C5_suffix_handling_witness :
    decompressStep (fun b => Except.ok b) defaultCli "bzip2rs" (⟨[], []⟩, []) "plain.txt" =
      ((⟨[], []⟩ : Sys), [Error.CannotGuessOriginalName "plain.txt"]) ∧
    compressStep (fun b => Except.ok b) defaultCli (⟨[], []⟩, []) "a.bz2" =
      ((⟨[], []⟩ : Sys),
        [Error.InvalidInput ("bzip2: Input file " ++ "a.bz2" ++ " already has .bz2 suffix.")]) := by
  constructor
  · exact C5_suffix_handling.2.2.1 (fun b => Except.ok b) defaultCli "bzip2rs"
      (⟨[], []⟩, []) "plain.txt" (by decide)
  · exact C5_suffix_handling.2.1 (fun b => Except.ok b) defaultCli
      (⟨[], []⟩, []) "a.bz2" (by decide)

/-- C8: when `-k` is not set, the per-file compress and decompress helpers
delete the input file regardless of whether opening or the codec step
failed; only files skipped before reaching the helper (wrong suffix, or an
existing destination without `--force`) are left untouched. -/
theorem C8_delete_unconditional :
    (∀ (eng : Engine) (file dest : String) (errs : List Error) (cli : Bzip2Cli)
        (pname : String) (s : Sys),
      cli.keep = false →
      lookupFile (decompress_each eng file dest errs cli pname s).1.fs file = none) ∧
    (∀ (eng : Engine) (file dest : String) (errs : List Error) (cli : Bzip2Cli) (s : Sys),
      cli.keep = false →
      lookupFile (compress eng file dest errs cli s).1.fs file = none) ∧
    (∀ (eng : Engine) (cli : Bzip2Cli) (acc : Sys × List Error) (file : String),
      ends_with file ".bz2" = true → (compressStep eng cli acc file).1 = acc.1) ∧
    (∀ (eng : Engine) (cli : Bzip2Cli) (acc : Sys × List Error) (file : String),
      cli.force = false → (lookupFile acc.1.fs (file ++ ".bz2")).isSome = true →
      (compressStep eng cli acc file).1 = acc.1) ∧
    (∀ (eng : Engine) (cli : Bzip2Cli) (pname : String) (acc : Sys × List Error) (file : String),
      ends_with file ".bz2" = false → (decompressStep eng cli pname acc file).1 = acc.1) ∧
    (∀ (eng : Engine) (cli : Bzip2Cli) (pname : String) (acc : Sys × List Error) (file : String),
      cli.force = false → (lookupFile acc.1.fs (strip_bz2 file)).isSome = true →
      (decompressStep eng cli pname acc file).1 = acc.1) := by
  refine ⟨?_, ?_, ?_, ?_, ?_, ?_⟩
  · intro eng file dest errs cli pname s hkeep
    simp only [decompress_each, hkeep, Bool.false_eq_true, if_false]
    split
    · exact lookupFile_eraseFile_self _ _
    · next heq => exact heq
  · intro eng file dest errs cli s hkeep
    simp only [compress, hkeep, Bool.false_eq_true, if_false]
    split
    · exact lookupFile_eraseFile_self _ _
    · next heq => exact heq
  · intro eng cli acc file h
    simp [compressStep, h]
  · intro eng cli acc file hf hl
    cases hsuf : ends_with file ".bz2"
    · simp [compressStep, hsuf, hf, hl]
    · simp [compressStep, hsuf]
  · intro eng cli pname acc file h
    simp [decompressStep, h]
  · intro eng cli pname acc file hf hl
    cases hsuf : ends_with file ".bz2"
    · simp [decompressStep, hsuf]
    · simp [decompressStep, hsuf, hf, hl]

/-- C8 witness: without `-k`, decompressing a missing-from-disk `e.bz2`
still removes it from the (empty) filesystem view, and the helper applied
to an existing file deletes it. -/
theorem C8_delete_unconditional_witness :
    lookupFile (decompress_each (fun b => Except.ok b) "e.bz2" "e" [] defaultCli "bzip2rs"
      ⟨[("e.bz2", [1, 2])], []⟩).1.fs "e.bz2" = none ∧
    lookupFile (compress (fun b => Except.ok b) "f.txt" "f.txt.bz2" [] defaultCli
      ⟨[], []⟩).1.fs "f.txt" = none :=
  ⟨C8_delete_unconditional.1 (fun b => Except.ok b) "e.bz2" "e" [] defaultCli "bzip2rs"
      ⟨[("e.bz2", [1, 2])], []⟩ rfl,
   C8_delete_unconditional.2.1 (fun b => Except.ok b) "f.txt" "f.txt.bz2" [] defaultCli
      ⟨[], []⟩ rfl⟩

/-! # The compression engine, modelled from the specification

Modelled from the spec: the bzip2 block codec (sections 2-4, 6 of the
specification) is NOT part of this repository — `pure_rust::compress`
/ `decompress` delegate to the external `banzai` and `bzip2_rs` crates,
and `libbzip2::*` to the system library. The definitions in the
`SpecCodec` namespace model that missing engine from the specification's
words: MSB-first bit I/O, Burrows-Wheeler transform with origin pointer,
move-to-front over the block's present symbols, zero-run RUNA/RUNB
encoding, canonical Huffman coding built by iterative frequency merging
with group selectors, and block framing with CRCs and stream/block magic
values. Where the specification leaves the encoder freedom (exact field
widths, how many tables to use, selector strategy), the model makes a
fixed valid choice and documents it. -/

namespace SpecCodec

/-! ## Bit I/O (spec section 4.1): MSB-first bit strings -/

/-- The lowest `w` bits of `v`, most significant first
(`writeBits(value, n)` appends the lowest n bits of value, MSB first). -/
def natToBits (v : Nat) : Nat → List Bool
  | 0 => []
  | w + 1 => v.testBit w :: natToBits v w

/-- Read an MSB-first bit string back into a number. -/
def bitsToNat (bs : List Bool) : Nat :=
  bs.foldl (fun acc b => 2 * acc + (if b then 1 else 0)) 0

theorem natToBits_length (v w : Nat) : (natToBits v w).length = w := by
  induction w with
  | zero => rfl
  | succ n ih => simp [natToBits, ih]

theorem mod_pow_succ_split (v n : Nat) :
    v % 2 ^ (n + 1) = 2 ^ n * (v / 2 ^ n % 2) + v % 2 ^ n := by
  have hd : 2 ^ n * (v / 2 ^ n) + v % 2 ^ n = v := Nat.div_add_mod v (2 ^ n)
  have hq : v / 2 ^ n = 2 * (v / 2 ^ n / 2) + v / 2 ^ n % 2 :=
    (Nat.div_add_mod (v / 2 ^ n) 2).symm
  have hlt : 2 ^ n * (v / 2 ^ n % 2) + v % 2 ^ n < 2 ^ n * 2 := by
    have h1 : v / 2 ^ n % 2 ≤ 1 := Nat.lt_succ_iff.mp (Nat.mod_lt _ (by norm_num))
    have h2 : v % 2 ^ n < 2 ^ n := Nat.mod_lt _ (Nat.pos_pow_of_pos n (by norm_num))
    have h3 : 2 ^ n * (v / 2 ^ n % 2) ≤ 2 ^ n * 1 := Nat.mul_le_mul_left _ h1
    omega
  calc v % 2 ^ (n + 1)
      = (2 ^ n * (v / 2 ^ n) + v % 2 ^ n) % 2 ^ (n + 1) := by rw [hd]
    _ = (2 ^ n * 2 * (v / 2 ^ n / 2) + (2 ^ n * (v / 2 ^ n % 2) + v % 2 ^ n)) % 2 ^ (n + 1) := by
        congr 1
        conv_lhs => rw [hq]
        ring
    _ = (2 ^ n * (v / 2 ^ n % 2) + v % 2 ^ n) % 2 ^ (n + 1) := by
        rw [pow_succ, Nat.mul_add_mod]
    _ = 2 ^ n * (v / 2 ^ n % 2) + v % 2 ^ n := by
        rw [pow_succ]; exact Nat.mod_eq_of_lt hlt

theorem bitsToNat_foldl (v w a : Nat) :
    (natToBits v w).foldl (fun acc b => 2 * acc + (if b then 1 else 0)) a =
      a * 2 ^ w + v % 2 ^ w := by
  induction w generalizing a with
  | zero => simp [natToBits, Nat.mod_one]
  | succ n ih =>
    simp only [natToBits, List.foldl_cons, ih]
    rw [Nat.testBit_to_div_mod, mod_pow_succ_split]
    rcases Nat.mod_two_eq_zero_or_one (v / 2 ^ n) with h | h <;>
      simp only [h] <;> simp <;> ring

theorem bitsToNat_natToBits (v w : Nat) : bitsToNat (natToBits v w) = v % 2 ^ w := by
  simpa [bitsToNat] using bitsToNat_foldl v w 0

theorem bitsToNat_natToBits_of_lt (v w : Nat) (h : v < 2 ^ w) :
    bitsToNat (natToBits v w) = v := by
  rw [bitsToNat_natToBits, Nat.mod_eq_of_lt h]

end SpecCodec

namespace SpecCodec

/-- `readBits(n)`: consume `w` bits MSB-first; fails (TruncatedStream)
when fewer bits remain. -/
def readBits (w : Nat) (bs : List Bool) : Option (Nat × List Bool) :=
  if w ≤ bs.length then some (bitsToNat (bs.take w), bs.drop w) else none

theorem readBits_append (v w : Nat) (rest : List Bool) (h : v < 2 ^ w) :
    readBits w (natToBits v w ++ rest) = some (v, rest) := by
  have hlen : (natToBits v w).length = w := natToBits_length v w
  have htake : (natToBits v w ++ rest).take w = natToBits v w :=
    List.take_left' hlen
  have hdrop : (natToBits v w ++ rest).drop w = rest :=
    List.drop_left' hlen
  simp [readBits, htake, hdrop, bitsToNat_natToBits_of_lt v w h, hlen]

/-! ## Move-to-front (spec section 4.3): sliding rank table -/

/-- MTF encode: emit each symbol's current rank, then move it to the front. -/
def mtfEncode : List Nat → List Nat → List Nat
  | _, [] => []
  | table, x :: xs => table.indexOf x :: mtfEncode (x :: table.erase x) xs

/-- MTF decode: look the rank up, emit the symbol, move it to the front —
the same table evolution as the encoder, in lockstep. -/
def mtfDecode : List Nat → List Nat → List Nat
  | _, [] => []
  | table, r :: rs => (table.getD r 0) :: mtfDecode ((table.getD r 0) :: table.erase (table.getD r 0)) rs

theorem mtfDecode_mtfEncode (xs : List Nat) : ∀ (table : List Nat),
    (∀ x ∈ xs, x ∈ table) → mtfDecode table (mtfEncode table xs) = xs := by
  induction xs with
  | nil => intro table _; rfl
  | cons x xs ih =>
    intro table h
    have hx : x ∈ table := h x (List.mem_cons_self x xs)
    have hidx : table.indexOf x < table.length := List.indexOf_lt_length.mpr hx
    have hget : table.getD (table.indexOf x) 0 = x := by
      rw [List.getD_eq_getElem table 0 hidx]
      exact List.getElem_indexOf hidx
    have hperm : List.Perm table (x :: table.erase x) := List.perm_cons_erase hx
    simp only [mtfEncode, mtfDecode, hget]
    refine congrArg _ (ih (x :: table.erase x) ?_)
    intro y hy
    exact hperm.mem_iff.mp (h y (List.mem_cons_of_mem x hy))

theorem mtfEncode_ranks_lt (xs : List Nat) : ∀ (table : List Nat),
    (∀ x ∈ xs, x ∈ table) → ∀ r ∈ mtfEncode table xs, r < table.length := by
  induction xs with
  | nil => intro table _ r hr; cases hr
  | cons x xs ih =>
    intro table h r hr
    have hx : x ∈ table := h x (List.mem_cons_self x xs)
    have hperm : List.Perm table (x :: table.erase x) := List.perm_cons_erase hx
    rcases List.mem_cons.mp hr with hr | hr
    · subst hr; exact List.indexOf_lt_length.mpr hx
    · have hlen : (x :: table.erase x).length = table.length := hperm.length_eq.symm
      rw [← hlen]
      refine ih (x :: table.erase x) ?_ r hr
      intro y hy
      exact hperm.mem_iff.mp (h y (List.mem_cons_of_mem x hy))

/-! ## Zero-run encoding (spec section 4.3): bijective base-2 RUNA/RUNB -/

/-- Digits (values 1 and 2, least significant first) of the bijective
base-2 numeral of `n`; empty exactly for a run of length 0. -/
def bij2Digits (n : Nat) : List Nat :=
  if n = 0 then []
  else
    let d := if n % 2 = 1 then 1 else 2
    d :: bij2Digits ((n - d) / 2)
termination_by n
decreasing_by simp_wf; split <;> omega

/-- Value of a bijective base-2 digit string (LSB first). -/
def bij2Val : List Nat → Nat
  | [] => 0
  | d :: ds => d + 2 * bij2Val ds

theorem bij2Val_bij2Digits (n : Nat) : bij2Val (bij2Digits n) = n := by
  induction n using Nat.strong_induction_on with
  | _ n ih =>
    rw [bij2Digits]
    by_cases h0 : n = 0
    · simp [h0, bij2Val]
    · simp only [h0, if_false]
      by_cases h1 : n % 2 = 1
      · simp only [h1, if_true, bij2Val]
        rw [ih ((n - 1) / 2) (by omega)]
        omega
      · simp only [h1, if_false, bij2Val]
        rw [ih ((n - 2) / 2) (by omega)]
        omega

theorem bij2Digits_mem (n : Nat) : ∀ d ∈ bij2Digits n, d = 1 ∨ d = 2 := by
  induction n using Nat.strong_induction_on with
  | _ n ih =>
    intro d hd
    rw [bij2Digits] at hd
    by_cases h0 : n = 0
    · simp [h0] at hd
    · simp only [h0, if_false, List.mem_cons] at hd
      rcases hd with hd | hd
      · subst hd; split <;> simp
      · exact ih _ (by split at hd <;> omega) d hd

theorem bij2Digits_length_le (n : Nat) : (bij2Digits n).length ≤ n := by
  induction n using Nat.strong_induction_on with
  | _ n ih =>
    rw [bij2Digits]
    by_cases h0 : n = 0
    · simp [h0]
    · simp only [h0, if_false, List.length_cons]
      have := ih ((n - if n % 2 = 1 then 1 else 2) / 2) (by split <;> omega)
      split at this <;> split <;> omega

/-- The RUNA/RUNB symbols for a zero-run of length `z`
(RUNA = symbol 0, RUNB = symbol 1). -/
def runDigits (z : Nat) : List Nat :=
  (bij2Digits z).map (fun d => d - 1)

/-- Stage-1 run-length encode of an MTF rank sequence: maximal zero runs
become RUNA/RUNB numerals, a nonzero rank `r` becomes symbol `r + 1`
(symbol 0 is never emitted for a literal). `z` is the pending run. -/
def rle2Go : Nat → List Nat → List Nat
  | z, [] => runDigits z
  | z, r :: rest =>
    if r = 0 then rle2Go (z + 1) rest
    else runDigits z ++ (r + 1) :: rle2Go 0 rest

def rle2Encode (ranks : List Nat) : List Nat := rle2Go 0 ranks

/-- Stage-1 decode: reassemble zero runs from RUNA/RUNB (with place value
`pow`), and map symbol `s ≥ 2` back to rank `s - 1`. -/
def rle2DecodeGo : Nat → Nat → List Nat → List Nat
  | acc, _, [] => List.replicate acc 0
  | acc, pow, s :: rest =>
    if s = 0 then rle2DecodeGo (acc + pow) (pow * 2) rest
    else if s = 1 then rle2DecodeGo (acc + 2 * pow) (pow * 2) rest
    else List.replicate acc 0 ++ (s - 1) :: rle2DecodeGo 0 1 rest

def rle2Decode (syms : List Nat) : List Nat := rle2DecodeGo 0 1 syms

theorem rle2DecodeGo_runDigits (z : Nat) : ∀ (acc pow : Nat) (tail : List Nat),
    rle2DecodeGo acc pow (runDigits z ++ tail) =
      rle2DecodeGo (acc + pow * z) (pow * 2 ^ (bij2Digits z).length) tail := by
  induction z using Nat.strong_induction_on with
  | _ z ih =>
    intro acc pow tail
    by_cases h0 : z = 0
    · simp [h0, runDigits, bij2Digits]
    · by_cases h1 : z % 2 = 1
      · have hunf : runDigits z = 0 :: runDigits ((z - 1) / 2) := by
          rw [runDigits, bij2Digits]
          simp [h0, h1, runDigits]
        have hlen : (bij2Digits z).length = (bij2Digits ((z - 1) / 2)).length + 1 := by
          conv_lhs => rw [bij2Digits]
          simp [h0, h1]
        have hz : z = 2 * ((z - 1) / 2) + 1 := by omega
        have ha : acc + pow + pow * 2 * ((z - 1) / 2) = acc + pow * z := by
          conv_rhs => rw [hz]
          ring
        have hp : pow * 2 * 2 ^ (bij2Digits ((z - 1) / 2)).length =
            pow * 2 ^ (bij2Digits z).length := by
          rw [hlen, pow_succ]; ring
        have hstep : rle2DecodeGo acc pow ((0 : Nat) :: (runDigits ((z - 1) / 2) ++ tail)) =
            rle2DecodeGo (acc + pow) (pow * 2) (runDigits ((z - 1) / 2) ++ tail) := by
          simp [rle2DecodeGo]
        rw [hunf, List.cons_append, hstep, ih ((z - 1) / 2) (by omega), ha, hp]
      · have hunf : runDigits z = 1 :: runDigits ((z - 2) / 2) := by
          rw [runDigits, bij2Digits]
          simp [h0, h1, runDigits]
        have hlen : (bij2Digits z).length = (bij2Digits ((z - 2) / 2)).length + 1 := by
          conv_lhs => rw [bij2Digits]
          simp [h0, h1]
        have hz : z = 2 * ((z - 2) / 2) + 2 := by omega
        have ha : acc + 2 * pow + pow * 2 * ((z - 2) / 2) = acc + pow * z := by
          conv_rhs => rw [hz]
          ring
        have hp : pow * 2 * 2 ^ (bij2Digits ((z - 2) / 2)).length =
            pow * 2 ^ (bij2Digits z).length := by
          rw [hlen, pow_succ]; ring
        have hstep : rle2DecodeGo acc pow ((1 : Nat) :: (runDigits ((z - 2) / 2) ++ tail)) =
            rle2DecodeGo (acc + 2 * pow) (pow * 2) (runDigits ((z - 2) / 2) ++ tail) := by
          simp [rle2DecodeGo]
        rw [hunf, List.cons_append, hstep, ih ((z - 2) / 2) (by omega), ha, hp]

theorem rle2Decode_rle2Go (ranks : List Nat) : ∀ (z : Nat),
    rle2DecodeGo 0 1 (rle2Go z ranks) = List.replicate z 0 ++ ranks := by
  induction ranks with
  | nil =>
    intro z
    rw [rle2Go, show runDigits z = runDigits z ++ [] by simp,
      rle2DecodeGo_runDigits]
    simp [rle2DecodeGo]
  | cons r rest ih =>
    intro z
    rw [rle2Go]
    by_cases hr : r = 0
    · simp only [hr, if_true]
      rw [ih (z + 1), List.replicate_succ' z 0]
      simp
    · simp only [hr, if_false]
      rw [rle2DecodeGo_runDigits]
      have h2 : ¬(r + 1 = 0) := by omega
      have h3 : ¬(r + 1 = 1) := by omega
      simp only [rle2DecodeGo, h2, if_false, h3, Nat.add_sub_cancel]
      rw [ih 0]
      simp

theorem rle2Decode_rle2Encode (ranks : List Nat) :
    rle2Decode (rle2Encode ranks) = ranks := by
  simpa [rle2Decode, rle2Encode] using rle2Decode_rle2Go ranks 0

end SpecCodec

namespace SpecCodec

/-! ## Burrows-Wheeler transform (spec section 4.2)

Forward: sort all cyclic rotations lexicographically, ties broken by
rotation start index ascending; output the last column and the row index
of the unrotated string. Inverse: LF-mapping replay from the origin
pointer. -/

/-- Strict lexicographic order on rotations. -/
def listLt : List Nat → List Nat → Prop := List.Lex (· < ·)

instance : DecidableRel listLt := List.Lex.decidableRel _

/-- Row order: lexicographic on the rotation, ties broken by start index
ascending (a stable total order). -/
def rowLe (x y : List Nat × Nat) : Prop :=
  listLt x.1 y.1 ∨ (x.1 = y.1 ∧ x.2 ≤ y.2)

instance : DecidableRel rowLe :=
  fun x y => inferInstanceAs (Decidable (listLt x.1 y.1 ∨ (x.1 = y.1 ∧ x.2 ≤ y.2)))

/-- All cyclic rotations of `l`, each tagged with its start index. -/
def rots (l : List Nat) : List (List Nat × Nat) :=
  (List.range l.length).map (fun i => (l.rotate i, i))

/-- Last element, with default (rotations of a nonempty block are nonempty). -/
def lastD (xs : List Nat) : Nat := xs.getD (xs.length - 1) 0

/-- The rotation rows, sorted by `rowLe`. -/
def sortedRows (l : List Nat) : List (List Nat × Nat) :=
  List.insertionSort rowLe (rots l)

/-- Forward BWT: the last column of the sorted rotation matrix and the
origin pointer (the sorted position of the unrotated string). -/
def bwtEncode (l : List Nat) : List Nat × Nat :=
  ((sortedRows l).map (fun p => lastD p.1), (sortedRows l).findIdx (fun p => p.2 == 0))

/-- Occurrences of `c` strictly below position `j` of the last column. -/
def occBefore (L : List Nat) (c j : Nat) : Nat := (L.take j).count c

/-- Symbols of the block smaller than `c` (cumulative symbol counts). -/
def cntLt (L : List Nat) (c : Nat) : Nat := L.countP (fun x => decide (x < c))

/-- The LF mapping: rank among equal-valued entries combined with
cumulative symbol counts. -/
def lf (L : List Nat) (j : Nat) : Nat :=
  cntLt L (L.getD j 0) + occBefore L (L.getD j 0) j

/-- Replay the LF permutation `k` times, collecting last-column symbols
(they appear in reverse block order). -/
def lfWalk (L : List Nat) : Nat → Nat → List Nat
  | _, 0 => []
  | j, k + 1 => L.getD j 0 :: lfWalk L (lf L j) k

/-- Inverse BWT; fails (`InvalidBlock`) when the origin pointer is out of
range for the block length. -/
def bwtDecode (L : List Nat) (p : Nat) : Option (List Nat) :=
  if p < L.length then some (lfWalk L p L.length).reverse else none

end SpecCodec

namespace SpecCodec

/-! ### Order facts for the row order -/

theorem listLt_trans {a b c : List Nat} (h1 : listLt a b) (h2 : listLt b c) : listLt a c :=
  IsTrans.trans (r := List.Lex (· < ·)) a b c h1 h2

theorem listLt_irrefl (a : List Nat) : ¬ listLt a a :=
  IsIrrefl.irrefl (r := List.Lex (· < ·)) a

theorem listLt_asymm {a b : List Nat} (h : listLt a b) : ¬ listLt b a :=
  IsAsymm.asymm (r := List.Lex (· < ·)) a b h

theorem listLt_trichotomy (a b : List Nat) : listLt a b ∨ a = b ∨ listLt b a :=
  @IsTrichotomous.trichotomous (List Nat) (List.Lex (· < ·)) inferInstance a b

/-- Strict row order: the row order minus equality. -/
def rowLt (x y : List Nat × Nat) : Prop :=
  listLt x.1 y.1 ∨ (x.1 = y.1 ∧ x.2 < y.2)

instance : DecidableRel rowLt :=
  fun x y => inferInstanceAs (Decidable (listLt x.1 y.1 ∨ (x.1 = y.1 ∧ x.2 < y.2)))

theorem rowLt_irrefl (x : List Nat × Nat) : ¬ rowLt x x := by
  rintro (h | ⟨-, h⟩)
  · exact listLt_irrefl _ h
  · omega

theorem rowLt_trans {x y z : List Nat × Nat} (h1 : rowLt x y) (h2 : rowLt y z) : rowLt x z := by
  rcases h1 with h1 | ⟨e1, h1⟩ <;> rcases h2 with h2 | ⟨e2, h2⟩
  · exact Or.inl (listLt_trans h1 h2)
  · exact Or.inl (e2 ▸ h1)
  · exact Or.inl (e1 ▸ h2)
  · exact Or.inr ⟨e1.trans e2, lt_trans h1 h2⟩

theorem rowLt_asymm {x y : List Nat × Nat} (h : rowLt x y) : ¬ rowLt y x := by
  intro h2
  exact rowLt_irrefl x (rowLt_trans h h2)

theorem rowLe_of_rowLt {x y : List Nat × Nat} (h : rowLt x y) : rowLe x y := by
  rcases h with h | ⟨e, h⟩
  · exact Or.inl h
  · exact Or.inr ⟨e, le_of_lt h⟩

theorem rowLt_of_rowLe_ne {x y : List Nat × Nat} (h : rowLe x y) (hne : x ≠ y) : rowLt x y := by
  rcases h with h | ⟨e, h⟩
  · exact Or.inl h
  · refine Or.inr ⟨e, lt_of_le_of_ne h ?_⟩
    intro h2
    exact hne (Prod.ext e h2)

instance : IsTrans (List Nat × Nat) rowLe where
  trans := by
    intro x y z h1 h2
    rcases h1 with h1 | ⟨e1, h1⟩ <;> rcases h2 with h2 | ⟨e2, h2⟩
    · exact Or.inl (listLt_trans h1 h2)
    · exact Or.inl (e2 ▸ h1)
    · exact Or.inl (e1 ▸ h2)
    · exact Or.inr ⟨e1.trans e2, le_trans h1 h2⟩

instance : IsTotal (List Nat × Nat) rowLe where
  total := by
    intro x y
    rcases listLt_trichotomy x.1 y.1 with h | h | h
    · exact Or.inl (Or.inl h)
    · rcases Nat.le_total x.2 y.2 with h2 | h2
      · exact Or.inl (Or.inr ⟨h, h2⟩)
      · exact Or.inr (Or.inr ⟨h.symm, h2⟩)
    · exact Or.inr (Or.inl h)

instance : IsAntisymm (List Nat × Nat) rowLe where
  antisymm := by
    intro x y h1 h2
    rcases h1 with h1 | ⟨e1, h1⟩
    · rcases h2 with h2 | ⟨e2, h2⟩
      · exact absurd h2 (listLt_asymm h1)
      · exact absurd (e2 ▸ h1) (listLt_irrefl _)
    · rcases h2 with h2 | ⟨e2, h2⟩
      · exact absurd (e1 ▸ h2) (listLt_irrefl _)
      · exact Prod.ext e1 (le_antisymm h1 h2)

end SpecCodec

namespace SpecCodec

/-! ### Facts about the rotation rows and their sort -/

theorem length_rots (l : List Nat) : (rots l).length = l.length := by
  simp [rots]

theorem mem_rots {l : List Nat} {x : List Nat × Nat} (h : x ∈ rots l) :
    x.2 < l.length ∧ x.1 = l.rotate x.2 := by
  simp only [rots, List.mem_map, List.mem_range] at h
  obtain ⟨i, hi, rfl⟩ := h
  exact ⟨hi, rfl⟩

theorem rots_mem_of_lt {l : List Nat} {i : Nat} (h : i < l.length) :
    (l.rotate i, i) ∈ rots l := by
  simp only [rots, List.mem_map, List.mem_range]
  exact ⟨i, h, rfl⟩

theorem rots_nodup (l : List Nat) : (rots l).Nodup := by
  have h : (rots l).map Prod.snd = List.range l.length := by
    simp only [rots, List.map_map]
    exact List.map_id (List.range l.length)
  have h2 : ((rots l).map Prod.snd).Nodup := by
    rw [h]; exact List.nodup_range l.length
  exact h2.of_map

theorem sortedRows_perm (l : List Nat) : List.Perm (sortedRows l) (rots l) :=
  List.perm_insertionSort rowLe (rots l)

theorem sortedRows_sorted (l : List Nat) : List.Sorted rowLe (sortedRows l) :=
  List.sorted_insertionSort rowLe (rots l)

theorem sortedRows_length (l : List Nat) : (sortedRows l).length = l.length := by
  rw [(sortedRows_perm l).length_eq, length_rots]

theorem sortedRows_nodup (l : List Nat) : (sortedRows l).Nodup :=
  ((sortedRows_perm l).nodup_iff).mpr (rots_nodup l)

theorem mem_sortedRows {l : List Nat} {x : List Nat × Nat} (h : x ∈ sortedRows l) :
    x.2 < l.length ∧ x.1 = l.rotate x.2 :=
  mem_rots ((sortedRows_perm l).mem_iff.mp h)

theorem sortedRows_mem_of_lt {l : List Nat} {i : Nat} (h : i < l.length) :
    (l.rotate i, i) ∈ sortedRows l :=
  (sortedRows_perm l).mem_iff.mpr (rots_mem_of_lt h)

theorem sortedRows_pairwise_lt (l : List Nat) : (sortedRows l).Pairwise rowLt := by
  have h1 : (sortedRows l).Pairwise rowLe := sortedRows_sorted l
  have h2 : (sortedRows l).Pairwise (· ≠ ·) := sortedRows_nodup l
  exact (h1.and h2).imp (fun h => rowLt_of_rowLe_ne h.1 h.2)

/-! ### Position of an element in a strictly sorted list, by counting -/

theorem countP_lt_getElem_of_pairwise (S : List (List Nat × Nat))
    (hp : S.Pairwise rowLt) : ∀ (k : Nat) (hk : k < S.length),
    S.countP (fun y => decide (rowLt y S[k])) = k := by
  induction S with
  | nil => intro k hk; cases hk
  | cons x T ih =>
    intro k hk
    have hx : ∀ y ∈ T, rowLt x y := fun y hy => List.rel_of_pairwise_cons hp hy
    have hT : T.Pairwise rowLt := hp.of_cons
    match k with
    | 0 =>
      have h0 : (x :: T)[0] = x := rfl
      rw [h0, List.countP_cons]
      have hxx : (decide (rowLt x x) : Bool) = false := by
        simp [rowLt_irrefl x]
      rw [hxx]
      have : T.countP (fun y => decide (rowLt y x)) = 0 := by
        rw [List.countP_eq_zero]
        intro y hy
        simp only [decide_eq_true_eq]
        exact rowLt_asymm (hx y hy)
      simp [this]
    | k + 1 =>
      have hk' : k < T.length := by simpa using hk
      have h0 : (x :: T)[k + 1] = T[k] := rfl
      rw [h0, List.countP_cons]
      have hmem : T[k] ∈ T := List.getElem_mem hk'
      have hxk : (decide (rowLt x T[k]) : Bool) = true := by
        simp [hx _ hmem]
      rw [hxk, ih hT k hk']
      simp

theorem getElem_of_countP_mem (S : List (List Nat × Nat))
    (hp : S.Pairwise rowLt) {x : List Nat × Nat} (hx : x ∈ S) :
    ∃ hlt : S.countP (fun y => decide (rowLt y x)) < S.length,
      S[S.countP (fun y => decide (rowLt y x))] = x := by
  obtain ⟨k, hk, rfl⟩ := List.mem_iff_getElem.mp hx
  rw [countP_lt_getElem_of_pairwise S hp k hk]
  exact ⟨hk, rfl⟩

end SpecCodec

namespace SpecCodec

/-! ### Heads and lasts of rotations -/

/-- First element, with default. -/
def firstD (xs : List Nat) : Nat := xs.getD 0 0

theorem firstD_rotate (l : List Nat) (hl : l ≠ []) (i : Nat) :
    firstD (l.rotate i) = l.getD (i % l.length) 0 := by
  have hn : 0 < l.length := List.length_pos.mpr hl
  have h0 : 0 < (l.rotate i).length := by rw [List.length_rotate]; exact hn
  rw [firstD, List.getD_eq_getElem _ _ h0, List.getElem_rotate l i 0 h0,
    List.getD_eq_getElem _ _ (Nat.mod_lt _ hn)]
  simp

theorem lastD_rotate (l : List Nat) (hl : l ≠ []) (i : Nat) :
    lastD (l.rotate i) = l.getD ((i + l.length - 1) % l.length) 0 := by
  have hn : 0 < l.length := List.length_pos.mpr hl
  have hlen : (l.rotate i).length = l.length := List.length_rotate l i
  have h0 : (l.rotate i).length - 1 < (l.rotate i).length := by omega
  have harg : (l.rotate i).length - 1 + i = i + l.length - 1 := by rw [hlen]; omega
  rw [lastD, List.getD_eq_getElem _ _ h0, List.getElem_rotate l i _ h0,
    List.getD_eq_getElem _ _ (Nat.mod_lt _ hn)]
  simp only [harg]

theorem rot_pred (l : List Nat) (hl : l ≠ []) (i : Nat) :
    (l.rotate i).rotate (l.length - 1) = l.rotate ((i + l.length - 1) % l.length) := by
  have hn : 0 < l.length := List.length_pos.mpr hl
  have harg : i + (l.length - 1) = i + l.length - 1 := by omega
  rw [List.rotate_rotate, ← List.rotate_mod, harg]

theorem rotate_pred_cons (xs : List Nat) (h : xs ≠ []) :
    xs.rotate (xs.length - 1) = lastD xs :: xs.dropLast := by
  have hn : 0 < xs.length := List.length_pos.mpr h
  have hlt : xs.length - 1 < xs.length := by omega
  rw [List.rotate_eq_drop_append_take (by omega : xs.length - 1 ≤ xs.length)]
  have h1 : xs.drop (xs.length - 1) = [lastD xs] := by
    rw [List.drop_eq_getElem_cons hlt]
    have h2 : xs.length - 1 + 1 = xs.length := by omega
    rw [h2, List.drop_length, lastD, List.getD_eq_getElem _ _ hlt]
  rw [h1, ← List.dropLast_eq_take, List.singleton_append]

/-! ### Lexicographic order and dropping the last element -/

theorem listLt_cons_le (c : Nat) {u v : List Nat} (h : listLt u v ∨ u = v) :
    listLt (c :: u) (c :: v) ∨ (c :: u) = (c :: v) := by
  rcases h with h | h
  · exact Or.inl (List.Lex.cons h)
  · exact Or.inr (by rw [h])

theorem listLt_dropLast_le {x y : List Nat} (h : listLt x y) :
    x.length = y.length → (listLt x.dropLast y.dropLast ∨ x.dropLast = y.dropLast) := by
  induction h with
  | nil =>
    intro hlen
    simp at hlen
  | @cons a l₁ l₂ h ih =>
    intro hlen
    have hlen' : l₁.length = l₂.length := by simpa using hlen
    have h2 : l₂ ≠ [] := by
      intro h2
      rw [h2] at h
      exact List.Lex.not_nil_right _ _ h
    have h1 : l₁ ≠ [] := by
      intro h1
      rw [h1] at hlen'
      exact h2 (List.length_eq_zero.mp hlen'.symm)
    rw [List.dropLast_cons_of_ne_nil h1, List.dropLast_cons_of_ne_nil h2]
    exact listLt_cons_le a (ih hlen')
  | @rel a₁ l₁ a₂ l₂ hr =>
    intro hlen
    have hlen' : l₁.length = l₂.length := by simpa using hlen
    by_cases h1 : l₁ = []
    · have h2 : l₂ = [] := by
        rw [h1] at hlen'
        exact List.length_eq_zero.mp hlen'.symm
      subst h1; subst h2
      simp
    · have h2 : l₂ ≠ [] := by
        intro h2
        rw [h2] at hlen'
        exact h1 (List.length_eq_zero.mp hlen')
      rw [List.dropLast_cons_of_ne_nil h1, List.dropLast_cons_of_ne_nil h2]
      exact Or.inl (List.Lex.rel hr)

end SpecCodec

namespace SpecCodec

/-! ### The last and first columns are permutations of the block -/

theorem map_getD_range (l : List Nat) :
    (List.range l.length).map (fun i => l.getD i 0) = l := by
  apply List.ext_getElem
  · simp
  · intro i h1 h2
    simp only [List.getElem_map, List.getElem_range]
    rw [List.getD_eq_getElem _ _ h2]

theorem predIdx_val (n : Nat) (hn : 0 < n) (i : Nat) (hi : i < n) :
    (i + n - 1) % n = if i = 0 then n - 1 else i - 1 := by
  by_cases h0 : i = 0
  · subst h0
    rw [if_pos rfl, Nat.zero_add, Nat.mod_eq_of_lt (by omega)]
  · rw [if_neg h0]
    have h1 : i + n - 1 = n + (i - 1) := by omega
    rw [h1, Nat.add_mod_left, Nat.mod_eq_of_lt (by omega)]

theorem predIdx_perm (n : Nat) (hn : 0 < n) :
    List.Perm ((List.range n).map (fun i => (i + n - 1) % n)) (List.range n) := by
  have hnodup : (((List.range n).map (fun i => (i + n - 1) % n))).Nodup := by
    refine List.Nodup.map_on ?_ (List.nodup_range n)
    intro a ha b hb hab
    rw [List.mem_range] at ha hb
    rw [predIdx_val n hn a ha, predIdx_val n hn b hb] at hab
    by_cases h0a : a = 0 <;> by_cases h0b : b = 0 <;> simp [h0a, h0b] at hab <;> omega
  refine (List.perm_ext_iff_of_nodup hnodup (List.nodup_range n)).mpr ?_
  intro j
  simp only [List.mem_map, List.mem_range]
  constructor
  · rintro ⟨i, hi, rfl⟩
    exact Nat.mod_lt _ hn
  · intro hj
    by_cases hj1 : j = n - 1
    · exact ⟨0, hn, by rw [predIdx_val n hn 0 hn, if_pos rfl, hj1]⟩
    · refine ⟨j + 1, by omega, ?_⟩
      rw [predIdx_val n hn (j + 1) (by omega), if_neg (by omega)]
      omega

theorem lasts_rots_perm (l : List Nat) (hl : l ≠ []) :
    List.Perm ((rots l).map (fun p => lastD p.1)) l := by
  have hn : 0 < l.length := List.length_pos.mpr hl
  have h1 : (rots l).map (fun p => lastD p.1) =
      (List.range l.length).map (fun i => lastD (l.rotate i)) := by
    simp [rots, List.map_map]
  have h2 : (List.range l.length).map (fun i => lastD (l.rotate i)) =
      ((List.range l.length).map (fun i => (i + l.length - 1) % l.length)).map
        (fun j => l.getD j 0) := by
    rw [List.map_map]
    refine List.map_congr_left ?_
    intro i _
    exact lastD_rotate l hl i
  rw [h1, h2]
  have h3 := (predIdx_perm l.length hn).map (fun j => l.getD j 0)
  rw [map_getD_range l] at h3
  exact h3

theorem firsts_rots_eq (l : List Nat) (hl : l ≠ []) :
    (rots l).map (fun p => firstD p.1) = l := by
  have h1 : (rots l).map (fun p => firstD p.1) =
      (List.range l.length).map (fun i => firstD (l.rotate i)) := by
    simp [rots, List.map_map]
  rw [h1]
  have h2 : (List.range l.length).map (fun i => firstD (l.rotate i)) =
      (List.range l.length).map (fun i => l.getD i 0) := by
    refine List.map_congr_left ?_
    intro i hi
    rw [List.mem_range] at hi
    rw [firstD_rotate l hl i, Nat.mod_eq_of_lt hi]
  rw [h2, map_getD_range]

theorem lasts_sortedRows_perm (l : List Nat) (hl : l ≠ []) :
    List.Perm ((sortedRows l).map (fun p => lastD p.1)) l :=
  ((sortedRows_perm l).map (fun p => lastD p.1)).trans (lasts_rots_perm l hl)

theorem firsts_sortedRows_perm (l : List Nat) (hl : l ≠ []) :
    List.Perm ((sortedRows l).map (fun p => firstD p.1)) l := by
  have h := (sortedRows_perm l).map (fun p => firstD p.1)
  rw [firsts_rots_eq l hl] at h
  exact h

end SpecCodec

namespace SpecCodec

/-! ### Runs of equal keys in a key-sorted list are contiguous -/

theorem filter_key_eq_drop_take {α : Type} (key : α → Nat) (c : Nat) :
    ∀ (S : List α), S.Pairwise (fun a b => key a ≤ key b) →
    S.filter (fun x => key x == c) =
      (S.drop (S.countP (fun x => decide (key x < c)))).take
        (S.countP (fun x => key x == c)) := by
  intro S
  induction S with
  | nil => intro _; rfl
  | cons x T ih =>
    intro hp
    have hx : ∀ y ∈ T, key x ≤ key y := fun y hy => List.rel_of_pairwise_cons hp hy
    have hT := hp.of_cons
    rcases lt_trichotomy (key x) c with h | h | h
    · have hxc : (key x == c) = false := by simp; omega
      have hxlt : (decide (key x < c)) = true := by simp [h]
      have hc1 : (x :: T).countP (fun y => decide (key y < c)) =
          T.countP (fun y => decide (key y < c)) + 1 := by
        rw [List.countP_cons, hxlt]
        simp
      have hc2 : (x :: T).countP (fun y => key y == c) =
          T.countP (fun y => key y == c) := by
        rw [List.countP_cons, hxc]
        simp
      have hf : (x :: T).filter (fun y => key y == c) =
          T.filter (fun y => key y == c) := by
        rw [List.filter_cons, hxc]
        simp
      rw [hf, hc1, hc2, List.drop_succ_cons, ih hT]
    · have hxc : (key x == c) = true := by simp [h]
      have hxlt : (decide (key x < c)) = false := by simp; omega
      have hTlt : T.countP (fun y => decide (key y < c)) = 0 := by
        rw [List.countP_eq_zero]
        intro y hy
        have := hx y hy
        simp
        omega
      have hc1 : (x :: T).countP (fun y => decide (key y < c)) = 0 := by
        rw [List.countP_cons, hTlt, hxlt]
        simp
      have hc2 : (x :: T).countP (fun y => key y == c) =
          T.countP (fun y => key y == c) + 1 := by
        rw [List.countP_cons, hxc]
        simp
      have hf : (x :: T).filter (fun y => key y == c) =
          x :: T.filter (fun y => key y == c) := by
        rw [List.filter_cons, hxc]
        simp
      rw [hf, hc1, hc2, List.drop_zero, List.take_succ_cons, ih hT, hTlt, List.drop_zero]
    · have hall : ∀ y ∈ x :: T, (key y == c) = false := by
        intro y hy
        have hge : key x ≤ key y := by
          rcases List.mem_cons.mp hy with rfl | hy
          · exact le_refl _
          · exact hx y hy
        simp
        omega
      have hcnt : (x :: T).countP (fun y => key y == c) = 0 :=
        List.countP_eq_zero.mpr (fun y hy => by simp [hall y hy])
      have hfil : (x :: T).filter (fun y => key y == c) = [] :=
        List.filter_eq_nil_iff.mpr (fun y hy => by simp [hall y hy])
      rw [hfil, hcnt, List.take_zero]

/-- The `r`-th element of a key-run sits at position `countLt + r` of the
key-sorted list. -/
theorem getElem_key_run {α : Type} (key : α → Nat) (c : Nat) (S : List α)
    (hp : S.Pairwise (fun a b => key a ≤ key b)) (r : Nat)
    (hr : r < S.countP (fun x => key x == c)) :
    ∃ hidx : S.countP (fun x => decide (key x < c)) + r < S.length,
      S[S.countP (fun x => decide (key x < c)) + r] =
        (S.filter (fun x => key x == c)).getD r S[S.countP (fun x => decide (key x < c)) + r] := by
  have heq := filter_key_eq_drop_take key c S hp
  have hlenf : (S.filter (fun x => key x == c)).length = S.countP (fun x => key x == c) :=
    (List.countP_eq_length_filter _ _).symm
  have hlen2 := congrArg List.length heq
  rw [hlenf, List.length_take, List.length_drop] at hlen2
  have hidx : S.countP (fun x => decide (key x < c)) + r < S.length := by omega
  refine ⟨hidx, ?_⟩
  have hrf : r < (S.filter (fun x => key x == c)).length := by rw [hlenf]; exact hr
  rw [List.getD_eq_getElem _ _ hrf]
  have : (S.filter (fun x => key x == c))[r] =
      (getElem ((S.drop (S.countP (fun x => decide (key x < c)))).take
        (S.countP (fun x => key x == c))) (r) (by rw [← heq]; exact hrf)) := by
    congr 1
  rw [this, List.getElem_take, List.getElem_drop]

/-- Locate `S[j]` inside `S.filter q`: it is entry number
`countP q (S.take j)`. -/
theorem filter_getElem_countP {α : Type} (q : α → Bool) :
    ∀ (S : List α) (j : Nat) (hj : j < S.length), q S[j] = true →
    ∃ h2 : (S.take j).countP q < (S.filter q).length,
      (S.filter q)[(S.take j).countP q] = S[j] := by
  intro S
  induction S with
  | nil => intro j hj; cases hj
  | cons x T ih =>
    intro j hj hq
    match j with
    | 0 =>
      have h0 : (x :: T)[0] = x := rfl
      rw [h0] at hq
      rw [List.take_zero]
      simp only [List.countP_nil]
      rw [List.filter_cons, hq]
      exact ⟨by simp, rfl⟩
    | j + 1 =>
      have hj' : j < T.length := by simpa using hj
      have h0 : (x :: T)[j + 1] = T[j] := rfl
      rw [h0] at hq ⊢
      obtain ⟨hlt, hget⟩ := ih j hj' hq
      rw [List.take_succ_cons, List.countP_cons, List.filter_cons]
      cases hqx : q x
      · simp only [Bool.false_eq_true, if_false, Nat.add_zero]
        exact ⟨hlt, hget⟩
      · simp only [if_true, cond_true]
        refine ⟨by simpa using hlt, ?_⟩
        simpa using hget

end SpecCodec

namespace SpecCodec

/-! ### Predecessor rows: the LF mapping names the right rotation -/

/-- Weak lexicographic order on lists. -/
def listLe (a b : List Nat) : Prop := listLt a b ∨ a = b

instance : IsAntisymm (List Nat) listLe where
  antisymm := by
    intro a b h1 h2
    rcases h1 with h1 | h1
    · rcases h2 with h2 | h2
      · exact absurd h2 (listLt_asymm h1)
      · exact h2.symm
    · exact h1

theorem listLt_firstD_le {a b : List Nat} (h : listLt a b) : firstD a ≤ firstD b := by
  cases h with
  | nil => simp [firstD]
  | cons h => exact le_refl _
  | rel h => exact le_of_lt h

theorem rowLe_firstD_le {x y : List Nat × Nat} (h : rowLe x y) :
    firstD x.1 ≤ firstD y.1 := by
  rcases h with h | ⟨h, -⟩
  · exact listLt_firstD_le h
  · rw [h]

theorem sortedRows_firstD_pairwise (l : List Nat) :
    (sortedRows l).Pairwise (fun a b => firstD a.1 ≤ firstD b.1) :=
  (sortedRows_sorted l).imp rowLe_firstD_le

/-- The predecessor of a rotation row: rotate one step right and step the
start index back by one (cyclically). -/
def predRow (n : Nat) (p : List Nat × Nat) : List Nat × Nat :=
  (p.1.rotate (n - 1), (p.2 + n - 1) % n)

theorem pred_le_of_rowLe {n : Nat} (hn : 0 < n) (x y : List Nat × Nat)
    (hx1 : x.1.length = n) (hy1 : y.1.length = n)
    (hlast : lastD x.1 = lastD y.1) (h : rowLe x y) :
    listLe (x.1.rotate (n - 1)) (y.1.rotate (n - 1)) := by
  rcases h with h | ⟨h, -⟩
  · have hxne : x.1 ≠ [] := by
      intro h0; rw [h0] at hx1; simp at hx1; omega
    have hyne : y.1 ≠ [] := by
      intro h0; rw [h0] at hy1; simp at hy1; omega
    have hrx : x.1.rotate (n - 1) = lastD x.1 :: x.1.dropLast := by
      rw [← hx1]; exact rotate_pred_cons x.1 hxne
    have hry : y.1.rotate (n - 1) = lastD y.1 :: y.1.dropLast := by
      rw [← hy1]; exact rotate_pred_cons y.1 hyne
    rw [hrx, hry, hlast]
    exact listLt_cons_le _ (listLt_dropLast_le h (hx1.trans hy1.symm))
  · rw [h]
    exact Or.inr rfl

/-- Reindexing a filtered range by the cyclic predecessor map is a
permutation of filtering by the transported predicate. -/
theorem predIdx_filter_perm (n : Nat) (hn : 0 < n) (Q : Nat → Bool) :
    List.Perm
      (((List.range n).filter (fun i => Q ((i + n - 1) % n))).map (fun i => (i + n - 1) % n))
      ((List.range n).filter Q) := by
  have hmemf : ∀ i ∈ (List.range n).filter (fun i => Q ((i + n - 1) % n)), i < n := by
    intro i hi
    exact List.mem_range.mp (List.mem_of_mem_filter hi)
  have hnodup : ((((List.range n).filter (fun i => Q ((i + n - 1) % n)))).map
      (fun i => (i + n - 1) % n)).Nodup := by
    refine List.Nodup.map_on ?_ ((List.nodup_range n).filter _)
    intro a ha b hb hab
    have ha' := hmemf a ha
    have hb' := hmemf b hb
    rw [predIdx_val n hn a ha', predIdx_val n hn b hb'] at hab
    by_cases h0a : a = 0 <;> by_cases h0b : b = 0 <;> simp [h0a, h0b] at hab <;> omega
  refine (List.perm_ext_iff_of_nodup hnodup ((List.nodup_range n).filter _)).mpr ?_
  intro j
  simp only [List.mem_map, List.mem_filter, List.mem_range]
  constructor
  · rintro ⟨i, ⟨hi, hQ⟩, rfl⟩
    exact ⟨Nat.mod_lt _ hn, hQ⟩
  · rintro ⟨hj, hQ⟩
    by_cases hj1 : j = n - 1
    · refine ⟨0, ⟨hn, ?_⟩, ?_⟩ <;>
        rw [predIdx_val n hn 0 hn, if_pos rfl, ← hj1] <;> assumption
    · have hlt : j + 1 < n := by omega
      have hval : (j + 1 + n - 1) % n = j := by
        rw [predIdx_val n hn (j + 1) hlt, if_neg (by omega)]
        omega
      exact ⟨j + 1, ⟨hlt, by rw [hval]; exact hQ⟩, by rw [hval]⟩

end SpecCodec

namespace SpecCodec

/-- The multiset of predecessor rows of the rows whose last symbol is `c`
is the multiset of rows whose first symbol is `c`. -/
theorem pred_filter_perm (l : List Nat) (hl : l ≠ []) (c : Nat) :
    List.Perm
      (((sortedRows l).filter (fun p => lastD p.1 == c)).map (predRow l.length))
      ((sortedRows l).filter (fun p => firstD p.1 == c)) := by
  have hn : 0 < l.length := List.length_pos.mpr hl
  have h1 : List.Perm
      (((sortedRows l).filter (fun p => lastD p.1 == c)).map (predRow l.length))
      (((rots l).filter (fun p => lastD p.1 == c)).map (predRow l.length)) :=
    ((sortedRows_perm l).filter _).map _
  have h2 : List.Perm ((rots l).filter (fun p => firstD p.1 == c))
      ((sortedRows l).filter (fun p => firstD p.1 == c)) :=
    ((sortedRows_perm l).symm.filter _)
  refine h1.trans (List.Perm.trans ?_ h2)
  rw [rots, List.filter_map, List.filter_map, List.map_map]
  have hcong : ((List.range l.length).filter
        ((fun p => lastD p.1 == c) ∘ fun i => (l.rotate i, i))).map
        (predRow l.length ∘ fun i => (l.rotate i, i)) =
      ((List.range l.length).filter
        ((fun p => lastD p.1 == c) ∘ fun i => (l.rotate i, i))).map
        ((fun i => (l.rotate i, i)) ∘ fun i => (i + l.length - 1) % l.length) := by
    refine List.map_congr_left ?_
    intro i hi
    have hilt : i < l.length := List.mem_range.mp (List.mem_of_mem_filter hi)
    simp only [Function.comp_apply, predRow]
    rw [rot_pred l hl i]
  rw [hcong]
  have hpred : ((List.range l.length).filter
        ((fun p => lastD p.1 == c) ∘ fun i => (l.rotate i, i))) =
      ((List.range l.length).filter
        (fun i => (fun j => firstD (l.rotate j) == c) ((i + l.length - 1) % l.length))) := by
    refine List.filter_congr ?_
    intro i hi
    have hilt : i < l.length := List.mem_range.mp hi
    simp only [Function.comp_apply]
    rw [lastD_rotate l hl i, firstD_rotate l hl _,
      Nat.mod_eq_of_lt (Nat.mod_lt _ hn)]
  rw [hpred, ← List.map_map]
  refine List.Perm.map _ ?_
  have hQ := predIdx_filter_perm l.length hn (fun j => firstD (l.rotate j) == c)
  refine hQ.trans ?_
  exact List.Perm.of_eq rfl

end SpecCodec

namespace SpecCodec

theorem pairwise_imp_mem {α : Type} {R S : α → α → Prop} {l : List α}
    (H : ∀ a b, a ∈ l → b ∈ l → R a b → S a b) (h : l.Pairwise R) : l.Pairwise S := by
  rw [List.pairwise_iff_forall_sublist] at h ⊢
  intro a b hab
  have hmem := hab.subset
  exact H a b (hmem (by simp)) (hmem (by simp)) (h hab)

/-- The crux of inverse-BWT correctness: position `lf L j` of the sorted
rotation matrix holds (a row carrying) the predecessor rotation of row `j`. -/
theorem lf_names_predecessor (l : List Nat) (hl : l ≠ [])
    (j : Nat) (hj : j < (sortedRows l).length) :
    ∃ hlt : lf ((sortedRows l).map (fun p => lastD p.1)) j < (sortedRows l).length,
      ((getElem (sortedRows l) (lf ((sortedRows l).map (fun p => lastD p.1)) j) hlt)).1 =
        ((getElem (sortedRows l) (j) hj)).1.rotate (l.length - 1) := by
  have hn : 0 < l.length := List.length_pos.mpr hl
  have hSlen : (sortedRows l).length = l.length := sortedRows_length l
  set S := sortedRows l with hSdef
  set L := S.map (fun p => lastD p.1) with hLdef
  have hjL : j < L.length := by
    rw [hLdef, List.length_map]; exact hj
  have hc : L.getD j 0 = lastD ((getElem S (j) hj)).1 := by
    rw [List.getD_eq_getElem _ _ hjL]
    simp only [hLdef, List.getElem_map]
  set c := L.getD j 0 with hcdef
  -- the two cumulative counts agree (both count symbols of the block)
  have hcntlast : S.countP (fun p => decide (lastD p.1 < c)) = l.countP (fun x => decide (x < c)) := by
    have h1 : S.countP (fun p => decide (lastD p.1 < c)) =
        (S.map (fun p => lastD p.1)).countP (fun x => decide (x < c)) := by
      rw [List.countP_map]; rfl
    rw [h1]
    exact (lasts_sortedRows_perm l hl).countP_eq _
  have hcntfirst : S.countP (fun p => decide (firstD p.1 < c)) = l.countP (fun x => decide (x < c)) := by
    have h1 : S.countP (fun p => decide (firstD p.1 < c)) =
        (S.map (fun p => firstD p.1)).countP (fun x => decide (x < c)) := by
      rw [List.countP_map]; rfl
    rw [h1]
    exact (firsts_sortedRows_perm l hl).countP_eq _
  have hA : cntLt L c = S.countP (fun p => decide (firstD p.1 < c)) := by
    rw [cntLt, hLdef, List.countP_map, hcntfirst]
    exact hcntlast.symm ▸ rfl
  -- the rank of row j among rows ending in c
  have hocc : occBefore L c j = (S.take j).countP (fun p => lastD p.1 == c) := by
    rw [occBefore, hLdef, ← List.map_take, List.count, List.countP_map]
    rfl
  set r := (S.take j).countP (fun p => lastD p.1 == c) with hrdef
  have hqj : (fun p => lastD p.1 == c) ((getElem S (j) hj)) = true := by
    simp only [hc]
    exact beq_self_eq_true _
  obtain ⟨hrlt, hLcget⟩ := filter_getElem_countP (fun p => lastD p.1 == c) S j hj hqj
  -- rows ending in c are as many as rows beginning with c
  have hElast : S.countP (fun p => lastD p.1 == c) = l.count c := by
    have h1 : S.countP (fun p => lastD p.1 == c) =
        (S.map (fun p => lastD p.1)).countP (fun x => x == c) := by
      rw [List.countP_map]; rfl
    rw [h1, ← List.count]
    exact (lasts_sortedRows_perm l hl).count_eq _
  have hEfirst : S.countP (fun p => firstD p.1 == c) = l.count c := by
    have h1 : S.countP (fun p => firstD p.1 == c) =
        (S.map (fun p => firstD p.1)).countP (fun x => x == c) := by
      rw [List.countP_map]; rfl
    rw [h1, ← List.count]
    exact (firsts_sortedRows_perm l hl).count_eq _
  have hrE : r < S.countP (fun p => firstD p.1 == c) := by
    have h1 : (S.filter (fun p => lastD p.1 == c)).length =
        S.countP (fun p => lastD p.1 == c) :=
      (List.countP_eq_length_filter _ _).symm
    rw [hEfirst, ← hElast, ← h1]
    exact hrlt
  obtain ⟨hidx, hrun⟩ :=
    getElem_key_run (fun p => firstD p.1) c S (sortedRows_firstD_pairwise l) r hrE
  have hlf : lf L j = S.countP (fun x => decide (firstD x.1 < c)) + r := by
    rw [lf, ← hcdef, hA, hocc]
  refine ⟨by rw [hlf]; exact hidx, ?_⟩
  -- the sorted predecessors of rows ending in c ARE the rows beginning with c
  have hpermc := pred_filter_perm l hl c
  have hfstperm : List.Perm
      ((S.filter (fun p => lastD p.1 == c)).map (fun p => p.1.rotate (l.length - 1)))
      ((S.filter (fun p => firstD p.1 == c)).map (fun p => p.1)) := by
    have h1 := hpermc.map Prod.fst
    rw [List.map_map] at h1
    exact h1
  have hsortP : ((S.filter (fun p => lastD p.1 == c)).map
      (fun p => p.1.rotate (l.length - 1))).Pairwise listLe := by
    rw [List.pairwise_map]
    have hpw : (S.filter (fun p => lastD p.1 == c)).Pairwise rowLe :=
      List.Pairwise.sublist (List.filter_sublist S) (sortedRows_sorted l)
    refine pairwise_imp_mem ?_ hpw
    intro a b ha hb hab
    have hamem : a ∈ S := List.mem_of_mem_filter ha
    have hbmem : b ∈ S := List.mem_of_mem_filter hb
    have halen : a.1.length = l.length := by
      rw [(mem_sortedRows hamem).2, List.length_rotate]
    have hblen : b.1.length = l.length := by
      rw [(mem_sortedRows hbmem).2, List.length_rotate]
    have halast : lastD a.1 = c := by
      have := List.of_mem_filter ha
      simpa using this
    have hblast : lastD b.1 = c := by
      have := List.of_mem_filter hb
      simpa using this
    exact pred_le_of_rowLe hn a b halen hblen (halast.trans hblast.symm) hab
  have hsortH : ((S.filter (fun p => firstD p.1 == c)).map (fun p => p.1)).Pairwise listLe := by
    rw [List.pairwise_map]
    have hpw : (S.filter (fun p => firstD p.1 == c)).Pairwise rowLe :=
      List.Pairwise.sublist (List.filter_sublist S) (sortedRows_sorted l)
    refine hpw.imp ?_
    intro a b hab
    rcases hab with hab | ⟨hab, -⟩
    · exact Or.inl hab
    · exact Or.inr hab
  have hfsteq : (S.filter (fun p => lastD p.1 == c)).map (fun p => p.1.rotate (l.length - 1)) =
      (S.filter (fun p => firstD p.1 == c)).map (fun p => p.1) :=
    List.eq_of_perm_of_sorted hfstperm hsortP hsortH
  -- read off entry r of both sides
  have hrF : r < ((S.filter (fun p => firstD p.1 == c))).length := by
    rw [List.countP_eq_length_filter] at hrE
    exact hrE
  have hrL2 : r < ((S.filter (fun p => lastD p.1 == c)).map
      (fun p => p.1.rotate (l.length - 1))).length := by
    rw [List.length_map]; exact hrlt
  have hLcget2 : (getElem (S.filter (fun p => lastD p.1 == c)) (r) hrlt) = (getElem S (j) hj) := hLcget
  have hgetP : (getElem ((S.filter (fun p => lastD p.1 == c)).map
      (fun p => p.1.rotate (l.length - 1))) (r) hrL2) =
      (((getElem S (j) hj)).1).rotate (l.length - 1) := by
    simp only [List.getElem_map]
    rw [hLcget2]
  have hrH2 : r < ((S.filter (fun p => firstD p.1 == c)).map (fun p => p.1)).length := by
    rw [List.length_map]; exact hrF
  have hgetH : (getElem ((S.filter (fun p => firstD p.1 == c)).map (fun p => p.1)) (r) hrH2) =
      ((getElem (S.filter (fun p => firstD p.1 == c)) (r) hrF)).1 := by
    rw [List.getElem_map]
  -- S at position A₀ + r is that filtered entry
  have hgetS : (getElem S (S.countP (fun x => decide (firstD x.1 < c)) + r) hidx) =
      (getElem (S.filter (fun p => firstD p.1 == c)) (r) hrF) := by
    rw [List.getD_eq_getElem _ _ hrF] at hrun
    exact hrun
  have hentry : (getElem ((S.filter (fun p => lastD p.1 == c)).map
      (fun p => p.1.rotate (l.length - 1))) (r) hrL2) =
      (getElem ((S.filter (fun p => firstD p.1 == c)).map (fun p => p.1)) (r) hrH2) := by
    have h2 := congrArg (fun t : List (List Nat) => t[r]?) hfsteq
    simp only at h2
    rw [List.getElem?_eq_getElem hrL2, List.getElem?_eq_getElem hrH2] at h2
    exact Option.some.inj h2
  have h1 : ((getElem S (lf L j) (by rw [hlf]; exact hidx))) =
      (getElem S (S.countP (fun x => decide (firstD x.1 < c)) + r) hidx) := by
    simp only [hlf]
  rw [h1, hgetS, ← hgetH, ← hentry]
  exact hgetP

end SpecCodec

namespace SpecCodec

/-- The origin pointer names the row holding the unrotated block. -/
theorem origin_row (l : List Nat) (hl : l ≠ []) :
    ∃ hp : (sortedRows l).findIdx (fun p => p.2 == 0) < (sortedRows l).length,
      (getElem (sortedRows l) ((sortedRows l).findIdx (fun p => p.2 == 0)) hp) = (l, 0) := by
  have hn : 0 < l.length := List.length_pos.mpr hl
  have hmem : (l.rotate 0, 0) ∈ sortedRows l := sortedRows_mem_of_lt hn
  rw [List.rotate_zero] at hmem
  have hex : ∃ x ∈ sortedRows l, (fun p : List Nat × Nat => p.2 == 0) x = true :=
    ⟨(l, 0), hmem, rfl⟩
  have hp : (sortedRows l).findIdx (fun p => p.2 == 0) < (sortedRows l).length :=
    List.findIdx_lt_length_of_exists hex
  refine ⟨hp, ?_⟩
  have hsat := List.findIdx_getElem (p := fun q : List Nat × Nat => q.2 == 0) (w := hp)
  have hmem2 := List.getElem_mem hp
  obtain ⟨-, h1⟩ := mem_sortedRows hmem2
  have hz : ((getElem (sortedRows l) ((sortedRows l).findIdx (fun p => p.2 == 0)) hp)).2 = 0 := by
    simpa using hsat
  have hfst : ((getElem (sortedRows l) ((sortedRows l).findIdx (fun p => p.2 == 0)) hp)).1 = l := by
    rw [h1, hz, List.rotate_zero]
  exact Prod.ext hfst hz

/-- Replaying the LF mapping from a row holding `l.rotate a` yields the
symbols `l[(a + (t+1)(n-1) - 1) mod n]`, i.e. the block read backwards. -/
theorem lfWalk_spec (l : List Nat) (hl : l ≠ []) :
    ∀ (m a j : Nat) (hj : j < (sortedRows l).length),
      ((getElem (sortedRows l) (j) hj)).1 = l.rotate a →
      lfWalk ((sortedRows l).map (fun p => lastD p.1)) j m =
        (List.range m).map
          (fun t => l.getD ((a + t * (l.length - 1) + l.length - 1) % l.length) 0) := by
  intro m
  induction m with
  | zero => intro a j hj hrow; simp [lfWalk]
  | succ m ih =>
    intro a j hj hrow
    have hjL : j < ((sortedRows l).map (fun p => lastD p.1)).length := by
      rw [List.length_map]; exact hj
    have hhead : ((sortedRows l).map (fun p => lastD p.1)).getD j 0 =
        l.getD ((a + l.length - 1) % l.length) 0 := by
      rw [List.getD_eq_getElem _ _ hjL]
      simp only [List.getElem_map]
      rw [hrow, lastD_rotate l hl a]
    obtain ⟨hlt, hpred⟩ := lf_names_predecessor l hl j hj
    have hrow2 : ((getElem (sortedRows l) (lf ((sortedRows l).map (fun p => lastD p.1)) j) hlt)).1 =
        l.rotate (a + (l.length - 1)) := by
      rw [hpred, hrow, List.rotate_rotate]
    have hihres := ih (a + (l.length - 1)) _ hlt hrow2
    rw [lfWalk, hihres, hhead]
    rw [List.range_succ_eq_map, List.map_cons, List.map_map]
    congr 1
    · have h0 : a + 0 * (l.length - 1) + l.length - 1 = a + l.length - 1 := by
        simp
      rw [h0]
    · refine List.map_congr_left ?_
      intro t _
      simp only [Function.comp_apply]
      have hmul : (t + 1) * (l.length - 1) = t * (l.length - 1) + (l.length - 1) := by ring
      have h3 : a + (l.length - 1) + t * (l.length - 1) = a + (t + 1) * (l.length - 1) := by
        rw [hmul]; ring
      rw [h3]

theorem walk_index (n t : Nat) (hn : 0 < n) (ht : t < n) :
    (t * (n - 1) + n - 1) % n = n - 1 - t := by
  have h2 : t ≤ n - 1 := by omega
  have h4 : 1 ≤ n := hn
  have h5 : 1 ≤ t * (n - 1) + n := le_trans h4 (Nat.le_add_left n _)
  have h1 : t * (n - 1) + n - 1 = n * t + (n - 1 - t) := by
    zify [h2, h4, Nat.le_sub_one_of_lt ht, h5]
    ring
  rw [h1, Nat.mul_add_mod, Nat.mod_eq_of_lt (by omega)]

theorem map_range_sub_reverse (l : List Nat) :
    ((List.range l.length).map (fun t => l.getD (l.length - 1 - t) 0)).reverse = l := by
  apply List.ext_getElem
  · simp
  · intro i h1 h2
    rw [List.getElem_reverse]
    simp only [List.getElem_map, List.getElem_range, List.length_map, List.length_range]
    have harg : l.length - 1 - (l.length - 1 - i) = i := by omega
    rw [harg, List.getD_eq_getElem _ _ h2]

/-- Inverse BWT is an exact left inverse of forward BWT on nonempty blocks. -/
theorem bwtDecode_bwtEncode (l : List Nat) (hl : l ≠ []) :
    bwtDecode (bwtEncode l).1 (bwtEncode l).2 = some l := by
  have hn : 0 < l.length := List.length_pos.mpr hl
  obtain ⟨hp, hpe⟩ := origin_row l hl
  have hLlen : (bwtEncode l).1.length = l.length := by
    rw [bwtEncode, List.length_map, sortedRows_length]
  have hplt : (bwtEncode l).2 < (bwtEncode l).1.length := by
    rw [hLlen, bwtEncode]
    rw [sortedRows_length l] at hp
    exact hp
  rw [bwtDecode, if_pos hplt]
  have hrow0 : ((getElem (sortedRows l) ((sortedRows l).findIdx (fun p => p.2 == 0)) hp)).1 =
      l.rotate 0 := by
    rw [hpe, List.rotate_zero]
  have hwalk := lfWalk_spec l hl l.length 0
    ((sortedRows l).findIdx (fun p => p.2 == 0)) hp hrow0
  have hwalk2 : lfWalk (bwtEncode l).1 (bwtEncode l).2 (bwtEncode l).1.length =
      (List.range l.length).map (fun t => l.getD (l.length - 1 - t) 0) := by
    rw [hLlen, bwtEncode]
    rw [hwalk]
    refine List.map_congr_left ?_
    intro t ht
    rw [List.mem_range] at ht
    have h0 : 0 + t * (l.length - 1) + l.length - 1 = t * (l.length - 1) + l.length - 1 := by
      omega
    rw [h0, walk_index l.length t hn ht]
  rw [hwalk2, map_range_sub_reverse]

end SpecCodec

namespace SpecCodec

/-! ## Huffman coding (spec section 4.4)

Construction by iterative frequency merging, canonical code assignment
(shorter codes first, ties by symbol order), serialization of per-symbol
code lengths only, and table-scan prefix decoding. -/

/-- A Huffman merge tree; leaves carry symbols. -/
inductive HTree where
  | leaf (s : Nat)
  | node (t1 t2 : HTree)

/-- Weight order on the merge worklist. -/
def wLe (a b : Nat × HTree) : Prop := a.1 ≤ b.1

instance : DecidableRel wLe := fun a b => inferInstanceAs (Decidable (a.1 ≤ b.1))

instance : IsTotal (Nat × HTree) wLe := ⟨fun a b => Nat.le_total a.1 b.1⟩

instance : IsTrans (Nat × HTree) wLe := ⟨fun _ _ _ h1 h2 => le_trans h1 h2⟩

/-- One merge round: order by weight and join the two lightest trees. -/
def hmergeStep (ws : List (Nat × HTree)) : List (Nat × HTree) :=
  match List.insertionSort wLe ws with
  | [] => []
  | [x] => [x]
  | x :: y :: rest => (x.1 + y.1, HTree.node x.2 y.2) :: rest

theorem hmergeStep_length {ws : List (Nat × HTree)} (h : 2 ≤ ws.length) :
    (hmergeStep ws).length + 1 = ws.length := by
  have hlen : (List.insertionSort wLe ws).length = ws.length :=
    (List.perm_insertionSort wLe ws).length_eq
  unfold hmergeStep
  split
  · rename_i hs
    rw [hs] at hlen
    simp only [List.length_nil] at hlen
    omega
  · rename_i x hs
    rw [hs] at hlen
    simp only [List.length_singleton] at hlen
    omega
  · rename_i x y rest hs
    rw [hs] at hlen
    simp only [List.length_cons] at hlen
    simp only [List.length_cons]
    omega

/-- Iterative frequency merging: repeatedly join the two lowest-weight
trees until one remains. -/
def hmerge (ws : List (Nat × HTree)) : Option HTree :=
  match hws : ws with
  | [] => none
  | [x] => some x.2
  | x :: y :: rest =>
    have h2 : 2 ≤ ws.length := by rw [hws]; simp
    have : (hmergeStep ws).length < ws.length := by
      have := hmergeStep_length h2
      omega
    hmerge (hmergeStep (x :: y :: rest))
termination_by ws.length
decreasing_by
  have h2 : 2 ≤ (x :: y :: rest).length := by simp
  have := hmergeStep_length h2
  omega

/-- Each leaf symbol with its depth. -/
def HTree.leafDepths : HTree → List (Nat × Nat)
  | .leaf s => [(s, 0)]
  | .node t1 t2 => (t1.leafDepths ++ t2.leafDepths).map (fun p => (p.1, p.2 + 1))

/-- Leaf symbols in left-to-right order. -/
def HTree.syms : HTree → List Nat
  | .leaf s => [s]
  | .node t1 t2 => t1.syms ++ t2.syms

theorem HTree.leafDepths_map_fst (t : HTree) : t.leafDepths.map Prod.fst = t.syms := by
  induction t with
  | leaf s => rfl
  | node t1 t2 ih1 ih2 =>
    simp only [HTree.leafDepths, HTree.syms, List.map_map, ← ih1, ← ih2, List.map_append]
    rfl

theorem HTree.leafDepths_ne_nil (t : HTree) : t.leafDepths ≠ [] := by
  induction t with
  | leaf s => simp [HTree.leafDepths]
  | node t1 t2 ih1 ih2 =>
    simp only [HTree.leafDepths]
    intro h
    rw [List.map_eq_nil_iff, List.append_eq_nil] at h
    exact ih1 h.1

/-- Kraft equality: a full binary tree's leaves exactly fill the code space. -/
theorem kraft (t : HTree) : ∀ (H : Nat), (∀ p ∈ t.leafDepths, p.2 ≤ H) →
    (t.leafDepths.map (fun p => 2 ^ (H - p.2))).sum = 2 ^ H := by
  induction t with
  | leaf s => intro H _; simp [HTree.leafDepths]
  | node t1 t2 ih1 ih2 =>
    intro H hH
    obtain ⟨p0, hp0⟩ := List.exists_mem_of_ne_nil _ (HTree.leafDepths_ne_nil t1)
    have hp0' : (p0.1, p0.2 + 1) ∈ HTree.leafDepths (.node t1 t2) := by
      simp only [HTree.leafDepths, List.mem_map]
      exact ⟨p0, by simp [hp0]⟩
    have hH1 : 1 ≤ H := by
      have := hH _ hp0'
      simp at this
      omega
    have hdep : ∀ p ∈ t1.leafDepths ++ t2.leafDepths, p.2 ≤ H - 1 := by
      intro p hp
      have hmem : (p.1, p.2 + 1) ∈ HTree.leafDepths (.node t1 t2) := by
        simp only [HTree.leafDepths, List.mem_map]
        exact ⟨p, hp, rfl⟩
      have := hH _ hmem
      simp at this
      omega
    have hmap : (HTree.leafDepths (.node t1 t2)).map (fun p => 2 ^ (H - p.2)) =
        ((t1.leafDepths ++ t2.leafDepths).map (fun p => 2 ^ ((H - 1) - p.2))) := by
      simp only [HTree.leafDepths, List.map_map]
      refine List.map_congr_left ?_
      intro p hp
      simp only [Function.comp_apply]
      have := hdep p hp
      congr 1
      omega
    rw [hmap, List.map_append, List.sum_append]
    rw [ih1 (H - 1) (fun p hp => hdep p (List.mem_append_left _ hp)),
      ih2 (H - 1) (fun p hp => hdep p (List.mem_append_right _ hp))]
    have h3 : 2 ^ (H - 1) + 2 ^ (H - 1) = 2 ^ (H - 1) * 2 := by ring
    rw [h3, ← pow_succ]
    congr 1
    omega

end SpecCodec

namespace SpecCodec

/-- All leaf symbols across a worklist. -/
def wsyms (ws : List (Nat × HTree)) : List Nat :=
  (ws.map (fun w => w.2.syms)).flatten

theorem hmergeStep_wsyms {ws : List (Nat × HTree)} :
    List.Perm (wsyms (hmergeStep ws)) (wsyms ws) := by
  have hperm : List.Perm (List.insertionSort wLe ws) ws := List.perm_insertionSort _ _
  have hws : List.Perm (wsyms (List.insertionSort wLe ws)) (wsyms ws) :=
    (hperm.map _).flatten
  unfold hmergeStep
  split
  · rename_i hs
    rw [hs] at hws
    exact hws
  · rename_i x hs
    rw [hs] at hws
    exact hws
  · rename_i x y rest hs
    rw [hs] at hws
    refine List.Perm.trans ?_ hws
    simp only [wsyms, List.map_cons, List.flatten_cons, HTree.syms]
    rw [List.append_assoc]

theorem hmergeStep_shape {ws : List (Nat × HTree)} (h : 2 ≤ ws.length) :
    ∃ w a b rest', hmergeStep ws = (w, HTree.node a b) :: rest' := by
  have hlen : (List.insertionSort wLe ws).length = ws.length :=
    (List.perm_insertionSort wLe ws).length_eq
  unfold hmergeStep
  split
  · rename_i hs
    rw [hs] at hlen
    simp only [List.length_nil] at hlen
    omega
  · rename_i x hs
    rw [hs] at hlen
    simp only [List.length_singleton] at hlen
    omega
  · rename_i x y rest hs
    exact ⟨x.1 + y.1, x.2, y.2, rest, rfl⟩

theorem hmerge_isSome (ws : List (Nat × HTree)) (h : ws ≠ []) :
    ∃ t, hmerge ws = some t := by
  induction ws using hmerge.induct with
  | case1 => exact absurd rfl h
  | case2 x => exact ⟨x.2, by rw [hmerge]⟩
  | case3 x y rest h2 hdec ih =>
    have hne : hmergeStep (x :: y :: rest) ≠ [] := by
      have := hmergeStep_length h2
      intro h0
      rw [h0] at this
      simp at this
    obtain ⟨t, ht⟩ := ih hne
    exact ⟨t, by rw [hmerge]; exact ht⟩

theorem hmerge_syms (ws : List (Nat × HTree)) :
    ∀ t, hmerge ws = some t → List.Perm t.syms (wsyms ws) := by
  induction ws using hmerge.induct with
  | case1 =>
    intro t ht
    rw [hmerge] at ht
    cases ht
  | case2 x =>
    intro t ht
    rw [hmerge] at ht
    cases ht
    simp [wsyms]
  | case3 x y rest h2 hdec ih =>
    intro t ht
    rw [hmerge] at ht
    exact (ih t ht).trans hmergeStep_wsyms

theorem hmerge_node (ws : List (Nat × HTree)) :
    2 ≤ ws.length → ∀ t, hmerge ws = some t → ∃ a b, t = HTree.node a b := by
  induction ws using hmerge.induct with
  | case1 => intro h2; simp at h2
  | case2 x => intro h2; simp at h2
  | case3 x y rest h2x hdec ih =>
    intro h2 t ht
    rw [hmerge] at ht
    obtain ⟨w, a, b, rest', hs⟩ := hmergeStep_shape h2
    by_cases hlen : 2 ≤ (hmergeStep (x :: y :: rest)).length
    · exact ih hlen t ht
    · have h1 : (hmergeStep (x :: y :: rest)).length = 1 := by
        have := hmergeStep_length h2
        simp only [List.length_cons] at this
        omega
      rw [hs] at h1 ht
      simp only [List.length_cons] at h1
      have hre : rest' = [] := List.length_eq_zero.mp (by omega)
      rw [hre] at ht
      rw [hmerge] at ht
      cases ht
      exact ⟨a, b, rfl⟩

theorem node_depths_pos (a b : HTree) :
    ∀ p ∈ (HTree.node a b).leafDepths, 1 ≤ p.2 := by
  intro p hp
  simp only [HTree.leafDepths, List.mem_map] at hp
  obtain ⟨q, -, rfl⟩ := hp
  omega

theorem depth_lt_leaves (t : HTree) :
    ∀ p ∈ t.leafDepths, p.2 + 1 ≤ t.leafDepths.length := by
  induction t with
  | leaf s =>
    intro p hp
    simp only [HTree.leafDepths, List.mem_singleton] at hp
    subst hp
    simp [HTree.leafDepths]
  | node t1 t2 ih1 ih2 =>
    intro p hp
    simp only [HTree.leafDepths, List.mem_map, List.mem_append] at hp
    obtain ⟨q, hq | hq, rfl⟩ := hp
    · have := ih1 q hq
      have h2 : 1 ≤ t2.leafDepths.length :=
        List.length_pos.mpr (HTree.leafDepths_ne_nil t2)
      simp only [HTree.leafDepths, List.length_map, List.length_append]
      omega
    · have := ih2 q hq
      have h1 : 1 ≤ t1.leafDepths.length :=
        List.length_pos.mpr (HTree.leafDepths_ne_nil t1)
      simp only [HTree.leafDepths, List.length_map, List.length_append]
      omega

end SpecCodec

namespace SpecCodec

/-! ### Canonical code assignment (shorter codes first, ties by symbol) -/

/-- Sort key for canonical assignment: by code length, then symbol. -/
def slLe (a b : Nat × Nat) : Prop := a.2 < b.2 ∨ (a.2 = b.2 ∧ a.1 ≤ b.1)

instance : DecidableRel slLe :=
  fun a b => inferInstanceAs (Decidable (a.2 < b.2 ∨ (a.2 = b.2 ∧ a.1 ≤ b.1)))

instance : IsTotal (Nat × Nat) slLe where
  total := by
    intro a b
    rcases lt_trichotomy a.2 b.2 with h | h | h
    · exact Or.inl (Or.inl h)
    · rcases Nat.le_total a.1 b.1 with h2 | h2
      · exact Or.inl (Or.inr ⟨h, h2⟩)
      · exact Or.inr (Or.inr ⟨h.symm, h2⟩)
    · exact Or.inr (Or.inl h)

instance : IsTrans (Nat × Nat) slLe where
  trans := by
    intro a b c h1 h2
    rcases h1 with h1 | ⟨e1, h1⟩ <;> rcases h2 with h2 | ⟨e2, h2⟩
    · exact Or.inl (lt_trans h1 h2)
    · exact Or.inl (e2 ▸ h1)
    · exact Or.inl (e1 ▸ h2)
    · exact Or.inr ⟨e1.trans e2, le_trans h1 h2⟩

/-- Each symbol of the alphabet paired with its code length. -/
def symLenPairs (lengths : List Nat) : List (Nat × Nat) :=
  (List.range lengths.length).map (fun s => (s, lengths.getD s 0))

/-- Symbols in canonical order. -/
def sortedSymLen (lengths : List Nat) : List (Nat × Nat) :=
  List.insertionSort slLe (symLenPairs lengths)

/-- Sequential canonical value assignment:
`code(next) = (code(prev) + 1) <<< (len(next) - len(prev))`. -/
def canonGo : Nat → Nat → List (Nat × Nat) → List (Nat × Nat × Nat)
  | _, _, [] => []
  | code, prevLen, (s, len) :: rest =>
    (s, len, code * 2 ^ (len - prevLen)) ::
      canonGo (code * 2 ^ (len - prevLen) + 1) len rest

/-- Canonical code assignment from per-symbol lengths alone:
entries `(symbol, length, value)`. -/
def canonAssign (lengths : List Nat) : List (Nat × Nat × Nat) :=
  canonGo 0 0 (sortedSymLen lengths)

/-- The decoder's table: canonical codewords with their symbols. -/
def codeTable (lengths : List Nat) : List (List Bool × Nat) :=
  (canonAssign lengths).map (fun e => (natToBits e.2.2 e.2.1, e.1))

/-- The encoder's codeword for a symbol. -/
def codeFor (lengths : List Nat) (s : Nat) : List Bool :=
  match (canonAssign lengths).find? (fun e => e.1 == s) with
  | some e => natToBits e.2.2 e.2.1
  | none => []

/-- Decode one symbol: scan the table for the first codeword that prefixes
the stream (incremental prefix matching); `none` is `InvalidCode`. -/
def decodeSym (table : List (List Bool × Nat)) (bs : List Bool) : Option (Nat × List Bool) :=
  match table with
  | [] => none
  | (cw, s) :: rest =>
    if cw.isPrefixOf bs then some (s, bs.drop cw.length) else decodeSym rest bs

/-- Kraft weight of a symbol-length list at width `W`. -/
def kraftSum (W : Nat) (ps : List (Nat × Nat)) : Nat :=
  (ps.map (fun p => 2 ^ (W - p.2))).sum

/-- The canonical assignment preserves symbols and lengths, fits every
value in its length, and allots consecutive disjoint code intervals. -/
theorem canonGo_spec (W : Nat) : ∀ (ps : List (Nat × Nat)) (code prevLen : Nat),
    ps.Pairwise (fun a b => a.2 ≤ b.2) →
    (∀ p ∈ ps, prevLen ≤ p.2 ∧ p.2 ≤ W) →
    code * 2 ^ (W - prevLen) + kraftSum W ps ≤ 2 ^ W →
    (canonGo code prevLen ps).map (fun e => (e.1, e.2.1)) = ps ∧
    (∀ e ∈ canonGo code prevLen ps,
      e.2.2 < 2 ^ e.2.1 ∧
      code * 2 ^ (W - prevLen) ≤ e.2.2 * 2 ^ (W - e.2.1)) ∧
    (canonGo code prevLen ps).Pairwise
      (fun e1 e2 => e1.2.2 * 2 ^ (W - e1.2.1) + 2 ^ (W - e1.2.1) ≤ e2.2.2 * 2 ^ (W - e2.2.1)) := by
  intro ps
  induction ps with
  | nil =>
    intro code prevLen _ _ _
    exact ⟨rfl, fun e he => absurd he (List.not_mem_nil e), List.Pairwise.nil⟩
  | cons p rest ih =>
    intro code prevLen hsort hbounds hbudget
    obtain ⟨s, len⟩ := p
    have hhead := hbounds (s, len) (List.mem_cons_self _ _)
    have hp1 : prevLen ≤ len := hhead.1
    have hp2 : len ≤ W := hhead.2
    set v := code * 2 ^ (len - prevLen) with hv
    have hKA : v * 2 ^ (W - len) = code * 2 ^ (W - prevLen) := by
      rw [hv, Nat.mul_assoc, ← pow_add]
      congr 2
      omega
    have hksum : kraftSum W ((s, len) :: rest) = 2 ^ (W - len) + kraftSum W rest := by
      simp [kraftSum]
    have hbudget2 : (v + 1) * 2 ^ (W - len) + kraftSum W rest ≤ 2 ^ W := by
      have : (v + 1) * 2 ^ (W - len) = v * 2 ^ (W - len) + 2 ^ (W - len) := by ring
      rw [this, hKA]
      rw [hksum] at hbudget
      omega
    have hfits : v + 1 ≤ 2 ^ len := by
      have h1 : (v + 1) * 2 ^ (W - len) ≤ 2 ^ W := le_trans (Nat.le_add_right _ _) hbudget2
      have h2 : (2 : Nat) ^ W = 2 ^ len * 2 ^ (W - len) := by
        rw [← pow_add]
        congr 1
        omega
      rw [h2] at h1
      exact Nat.le_of_mul_le_mul_right h1 (Nat.pos_pow_of_pos _ (by norm_num))
    have hsort' : rest.Pairwise (fun a b => a.2 ≤ b.2) := hsort.of_cons
    have hb' : ∀ q ∈ rest, len ≤ q.2 ∧ q.2 ≤ W := by
      intro q hq
      exact ⟨List.rel_of_pairwise_cons hsort hq, (hbounds q (List.mem_cons_of_mem _ hq)).2⟩
    obtain ⟨ihmap, ihmem, ihpw⟩ := ih (v + 1) len hsort' hb' hbudget2
    refine ⟨?_, ?_, ?_⟩
    · simp only [canonGo, List.map_cons, ihmap]
    · intro e he
      rcases List.mem_cons.mp he with rfl | he
      · refine ⟨?_, ?_⟩
        · show v < 2 ^ len
          omega
        · show code * 2 ^ (W - prevLen) ≤ v * 2 ^ (W - len)
          exact le_of_eq hKA.symm
      · obtain ⟨hf, hs⟩ := ihmem e he
        refine ⟨hf, ?_⟩
        refine le_trans ?_ hs
        rw [← hKA]
        have : v * 2 ^ (W - len) ≤ (v + 1) * 2 ^ (W - len) :=
          Nat.mul_le_mul_right _ (by omega)
        omega
    · rw [canonGo, List.pairwise_cons]
      refine ⟨?_, ihpw⟩
      intro e he
      obtain ⟨-, hs⟩ := ihmem e he
      have : v * 2 ^ (W - len) + 2 ^ (W - len) = (v + 1) * 2 ^ (W - len) := by ring
      simp only []
      rw [this]
      exact hs

end SpecCodec

namespace SpecCodec

/-! ### Bit-string arithmetic and prefix facts -/

theorem bitsToNat_general (c : List Bool) : ∀ (x : Nat),
    c.foldl (fun acc b => 2 * acc + (if b then 1 else 0)) x =
      x * 2 ^ c.length + bitsToNat c := by
  induction c with
  | nil => intro x; simp [bitsToNat]
  | cons b c ih =>
    intro x
    simp only [List.foldl_cons]
    rw [ih (2 * x + (if b then 1 else 0))]
    have h0 : bitsToNat (b :: c) = (if b then 1 else 0) * 2 ^ c.length + bitsToNat c := by
      rw [bitsToNat, List.foldl_cons]
      rw [ih (2 * 0 + (if b then 1 else 0))]
      ring_nf
    rw [h0]
    simp only [List.length_cons, pow_succ]
    ring

theorem bitsToNat_append (a c : List Bool) :
    bitsToNat (a ++ c) = bitsToNat a * 2 ^ c.length + bitsToNat c := by
  rw [bitsToNat, List.foldl_append, ← bitsToNat, bitsToNat_general]

theorem bitsToNat_lt (c : List Bool) : bitsToNat c < 2 ^ c.length := by
  induction c with
  | nil => simp [bitsToNat]
  | cons b c ih =>
    have h0 : bitsToNat (b :: c) = (if b then 1 else 0) * 2 ^ c.length + bitsToNat c := by
      rw [bitsToNat, List.foldl_cons, bitsToNat_general]
      ring_nf
    rw [h0]
    simp only [List.length_cons, pow_succ]
    split <;> omega

theorem isPrefixOf_append_self (a rest : List Bool) :
    a.isPrefixOf (a ++ rest) = true := by
  induction a with
  | nil => simp [List.isPrefixOf]
  | cons b a ih => simp [List.isPrefixOf, ih]

theorem exists_of_isPrefixOf : ∀ {a b : List Bool}, a.isPrefixOf b = true →
    ∃ t, a ++ t = b := by
  intro a
  induction a with
  | nil => intro b _; exact ⟨b, rfl⟩
  | cons x a ih =>
    intro b h
    match b with
    | [] => simp [List.isPrefixOf] at h
    | y :: b =>
      simp only [List.isPrefixOf, Bool.and_eq_true, beq_iff_eq] at h
      obtain ⟨t, ht⟩ := ih h.2
      exact ⟨t, by rw [List.cons_append, ht, h.1]⟩

theorem append_take_of_append_eq {a t c r : List Bool}
    (h : a ++ t = c ++ r) (hl : a.length ≤ c.length) : ∃ u, a ++ u = c := by
  refine ⟨t.take (c.length - a.length), ?_⟩
  have h1 := congrArg (fun x : List Bool => x.take c.length) h
  simp only at h1
  rw [List.take_append_eq_append_take, List.take_of_length_le hl,
    List.take_left' rfl] at h1
  have h2 : c.length - a.length ≤ t.length := by
    have := congrArg List.length h
    simp only [List.length_append] at this
    omega
  exact h1

/-- Two canonical entries with disjoint, ordered code intervals have
codewords that are not prefixes of one another. -/
theorem pair_nonprefix {W l1 l2 v1 v2 : Nat}
    (h1 : v1 < 2 ^ l1) (h2 : v2 < 2 ^ l2) (hl : l1 ≤ l2) (hl2W : l2 ≤ W)
    (hord : v1 * 2 ^ (W - l1) + 2 ^ (W - l1) ≤ v2 * 2 ^ (W - l2)) :
    (¬ ∃ t, natToBits v1 l1 ++ t = natToBits v2 l2) ∧
    (¬ ∃ t, natToBits v2 l2 ++ t = natToBits v1 l1) := by
  constructor
  · rintro ⟨t, ht⟩
    have hlen : l1 + t.length = l2 := by
      have := congrArg List.length ht
      simp only [List.length_append, natToBits_length] at this
      exact this
    have hval : v2 = v1 * 2 ^ t.length + bitsToNat t := by
      have := congrArg bitsToNat ht
      rw [bitsToNat_append, bitsToNat_natToBits_of_lt v1 l1 h1,
        bitsToNat_natToBits_of_lt v2 l2 h2] at this
      omega
    have hr : bitsToNat t < 2 ^ t.length := bitsToNat_lt t
    have hcontra : v2 * 2 ^ (W - l2) < v1 * 2 ^ (W - l1) + 2 ^ (W - l1) := by
      rw [hval, Nat.add_mul]
      have e1 : v1 * 2 ^ t.length * 2 ^ (W - l2) = v1 * 2 ^ (W - l1) := by
        rw [Nat.mul_assoc, ← pow_add]
        congr 2
        omega
      have e2 : bitsToNat t * 2 ^ (W - l2) < 2 ^ (W - l1) := by
        have : bitsToNat t * 2 ^ (W - l2) < 2 ^ t.length * 2 ^ (W - l2) :=
          (Nat.mul_lt_mul_right (Nat.pos_pow_of_pos _ (by norm_num))).mpr hr
        rw [← pow_add] at this
        have e3 : t.length + (W - l2) = W - l1 := by omega
        rw [e3] at this
        exact this
      omega
    omega
  · rintro ⟨t, ht⟩
    have hlen : l2 + t.length = l1 := by
      have := congrArg List.length ht
      simp only [List.length_append, natToBits_length] at this
      exact this
    have ht0 : t.length = 0 := by omega
    have hteq : t = [] := List.length_eq_zero.mp ht0
    rw [hteq, List.append_nil] at ht
    have hll : l1 = l2 := by omega
    have hveq : v2 = v1 := by
      have := congrArg bitsToNat ht
      rw [bitsToNat_natToBits_of_lt v1 l1 h1, bitsToNat_natToBits_of_lt v2 l2 h2] at this
      omega
    rw [hveq, hll] at hord
    have : 0 < 2 ^ (W - l2) := Nat.pos_pow_of_pos _ (by norm_num)
    omega

/-- Decoding scans to the first matching codeword; entries before ours do
not match, so decoding inverts encoding. -/
theorem decodeSym_split (pre : List (List Bool × Nat)) (cw : List Bool) (s : Nat)
    (post : List (List Bool × Nat)) (rest : List Bool)
    (hpre : ∀ e ∈ pre, e.1.isPrefixOf (cw ++ rest) = false) :
    decodeSym (pre ++ (cw, s) :: post) (cw ++ rest) = some (s, rest) := by
  induction pre with
  | nil =>
    simp only [List.nil_append, decodeSym, isPrefixOf_append_self, if_true]
    rw [List.drop_left]
  | cons e pre ih =>
    obtain ⟨ecw, es⟩ := e
    simp only [List.cons_append, decodeSym]
    rw [hpre (ecw, es) (List.mem_cons_self _ _)]
    simp only [Bool.false_eq_true, if_false]
    exact ih (fun e he => hpre e (List.mem_cons_of_mem _ he))

theorem find?_fst_eq {β : Type} {es : List (Nat × β)}
    (hnd : (es.map (fun e => e.1)).Nodup) {e : Nat × β} (he : e ∈ es) :
    es.find? (fun x => x.1 == e.1) = some e := by
  induction es with
  | nil => cases he
  | cons x es ih =>
    simp only [List.map_cons, List.nodup_cons] at hnd
    rcases List.mem_cons.mp he with rfl | he
    · simp [List.find?]
    · have hne : x.1 ≠ e.1 := by
        intro hx
        exact hnd.1 (hx ▸ List.mem_map_of_mem (fun e : Nat × β => e.1) he)
      rw [List.find?]
      have hbe : (x.1 == e.1) = false := by simp [hne]
      rw [hbe]
      exact ih hnd.2 he

end SpecCodec

namespace SpecCodec

/-- Main Huffman theorem: table-scan decoding inverts canonical encoding,
for any length table whose Kraft weight fits the code space and whose
lengths are positive. -/
theorem decodeSym_codeFor (lengths : List Nat) (W : Nat)
    (hbW : ∀ p ∈ symLenPairs lengths, 1 ≤ p.2 ∧ p.2 ≤ W)
    (hkraft : kraftSum W (symLenPairs lengths) ≤ 2 ^ W)
    (s : Nat) (hs : s < lengths.length) (rest : List Bool) :
    decodeSym (codeTable lengths) (codeFor lengths s ++ rest) = some (s, rest) := by
  have hperm : List.Perm (sortedSymLen lengths) (symLenPairs lengths) :=
    List.perm_insertionSort slLe (symLenPairs lengths)
  have hsort : (sortedSymLen lengths).Pairwise (fun a b => a.2 ≤ b.2) := by
    refine (List.sorted_insertionSort slLe (symLenPairs lengths)).imp ?_
    intro a b h
    rcases h with h | ⟨h, -⟩
    · exact le_of_lt h
    · exact le_of_eq h
  have hb' : ∀ p ∈ sortedSymLen lengths, 0 ≤ p.2 ∧ p.2 ≤ W := by
    intro p hp
    exact ⟨Nat.zero_le _, (hbW p (hperm.mem_iff.mp hp)).2⟩
  have hksum : kraftSum W (sortedSymLen lengths) = kraftSum W (symLenPairs lengths) :=
    (hperm.map _).sum_eq
  have hbudget : 0 * 2 ^ (W - 0) + kraftSum W (sortedSymLen lengths) ≤ 2 ^ W := by
    rw [Nat.zero_mul, Nat.zero_add, hksum]
    exact hkraft
  obtain ⟨hmap, hmem, hpw⟩ := canonGo_spec W (sortedSymLen lengths) 0 0 hsort hb' hbudget
  set es := canonAssign lengths with hesdef
  have hmap' : es.map (fun e => (e.1, e.2.1)) = sortedSymLen lengths := hmap
  have hfst : es.map (fun e => e.1) = (sortedSymLen lengths).map Prod.fst := by
    have := congrArg (List.map Prod.fst) hmap'
    rw [List.map_map] at this
    exact this
  have hfst_range : List.Perm ((sortedSymLen lengths).map Prod.fst)
      (List.range lengths.length) := by
    have h1 : (symLenPairs lengths).map Prod.fst = List.range lengths.length := by
      simp [symLenPairs, List.map_map]
      exact List.map_id _
    have := hperm.map Prod.fst
    rw [h1] at this
    exact this
  have hnd : (es.map (fun e => e.1)).Nodup := by
    rw [hfst]
    exact hfst_range.nodup_iff.mpr (List.nodup_range _)
  -- the entry for symbol s
  have hsmem : (s, lengths.getD s 0) ∈ symLenPairs lengths := by
    simp only [symLenPairs, List.mem_map, List.mem_range]
    exact ⟨s, hs, rfl⟩
  have hsmem2 : (s, lengths.getD s 0) ∈ sortedSymLen lengths := hperm.mem_iff.mpr hsmem
  rw [← hmap'] at hsmem2
  obtain ⟨e, hees, hepair⟩ := List.mem_map.mp hsmem2
  have hes : e.1 = s := congrArg Prod.fst hepair
  have hfind : es.find? (fun x => x.1 == s) = some e := by
    rw [← hes]
    exact find?_fst_eq hnd hees
  have hcode : codeFor lengths s = natToBits e.2.2 e.2.1 := by
    rw [codeFor, ← hesdef, hfind]
  -- lengths ascend along the assignment, and are bounded by W
  have hlen_pw : es.Pairwise (fun e1 e2 => e1.2.1 ≤ e2.2.1) := by
    have h2 := hsort
    rw [← hmap'] at h2
    exact (List.pairwise_map (f := fun e : Nat × Nat × Nat => (e.1, e.2.1))).mp h2
  have hlenW : ∀ d ∈ es, d.2.1 ≤ W := by
    intro d hd
    have : (d.1, d.2.1) ∈ sortedSymLen lengths := by
      rw [← hmap']
      exact List.mem_map_of_mem _ hd
    exact (hb' _ this).2
  -- no codeword is a prefix of another
  have hnp : es.Pairwise (fun e1 e2 =>
      (¬ ∃ t, natToBits e1.2.2 e1.2.1 ++ t = natToBits e2.2.2 e2.2.1) ∧
      (¬ ∃ t, natToBits e2.2.2 e2.2.1 ++ t = natToBits e1.2.2 e1.2.1)) := by
    refine pairwise_imp_mem ?_ (hpw.and hlen_pw)
    intro a b ha hb hab
    exact pair_nonprefix (hmem a ha).1 (hmem b hb).1 hab.2 (hlenW b hb) hab.1
  -- split the table at our entry and scan
  obtain ⟨pre, post, hsplit⟩ := List.append_of_mem hees
  have htable : codeTable lengths =
      pre.map (fun d => (natToBits d.2.2 d.2.1, d.1)) ++
        (natToBits e.2.2 e.2.1, e.1) ::
        post.map (fun d => (natToBits d.2.2 d.2.1, d.1)) := by
    rw [codeTable, ← hesdef, hsplit]
    simp
  have hprepost := hnp
  rw [hsplit, List.pairwise_append] at hprepost
  have hpre : ∀ d ∈ pre.map (fun d => (natToBits d.2.2 d.2.1, d.1)),
      d.1.isPrefixOf (natToBits e.2.2 e.2.1 ++ rest) = false := by
    intro d hd
    obtain ⟨d0, hd0, rfl⟩ := List.mem_map.mp hd
    have hrel := hprepost.2.2 d0 hd0 e (List.mem_cons_self _ _)
    cases hb : (natToBits d0.2.2 d0.2.1).isPrefixOf (natToBits e.2.2 e.2.1 ++ rest) with
    | false => rfl
    | true =>
      obtain ⟨t, ht⟩ := exists_of_isPrefixOf hb
      by_cases hl : (natToBits d0.2.2 d0.2.1).length ≤ (natToBits e.2.2 e.2.1).length
      · obtain ⟨u, hu⟩ := append_take_of_append_eq ht hl
        exact absurd ⟨u, hu⟩ hrel.1
      · obtain ⟨u, hu⟩ := append_take_of_append_eq ht.symm (by omega)
        exact absurd ⟨u, hu⟩ hrel.2
  rw [hcode, htable]
  rw [decodeSym_split _ _ _ _ _ hpre, hes]

end SpecCodec

namespace SpecCodec

/-! ### Code lengths from the Huffman merge tree -/

/-- Depth of a symbol in a leaf-depth table (0 when absent). -/
def lookupD (ps : List (Nat × Nat)) (s : Nat) : Nat :=
  match ps.find? (fun p => p.1 == s) with
  | some p => p.2
  | none => 0

/-- Per-symbol code lengths read off the merge tree. -/
def lensOfTree (t : HTree) (A : Nat) : List Nat :=
  (List.range A).map (fun s => lookupD t.leafDepths s)

/-- Huffman merge tree for an alphabet `0..A-1` with the given weights. -/
def huffTree (A : Nat) (freq : Nat → Nat) : Option HTree :=
  hmerge ((List.range A).map (fun s => (freq s, HTree.leaf s)))

/-- Code lengths produced by iterative frequency merging. -/
def huffLengths (A : Nat) (freq : Nat → Nat) : List Nat :=
  match huffTree A freq with
  | some t => lensOfTree t A
  | none => []

theorem flatten_map_singleton (l : List Nat) :
    (l.map (fun s => [s])).flatten = l := by
  induction l with
  | nil => rfl
  | cons x l ih => simp [ih]

theorem huffTree_wsyms (A : Nat) (freq : Nat → Nat) :
    wsyms ((List.range A).map (fun s => (freq s, HTree.leaf s))) = List.range A := by
  rw [wsyms, List.map_map]
  have : ((fun w : Nat × HTree => w.2.syms) ∘ fun s => (freq s, HTree.leaf s)) =
      fun s => [s] := by
    funext s
    rfl
  rw [this, flatten_map_singleton]

theorem huffTree_isSome (A : Nat) (freq : Nat → Nat) (hA : 1 ≤ A) :
    ∃ t, huffTree A freq = some t := by
  refine hmerge_isSome _ ?_
  intro h
  have := congrArg List.length h
  simp at this
  omega

theorem huffTree_spec (A : Nat) (freq : Nat → Nat) (t : HTree)
    (hA : 2 ≤ A) (ht : huffTree A freq = some t) :
    List.Perm t.syms (List.range A) ∧ (∃ a b, t = HTree.node a b) := by
  constructor
  · have := hmerge_syms _ t ht
    rw [huffTree_wsyms] at this
    exact this
  · refine hmerge_node _ ?_ t ht
    simp
    omega

theorem symLenPairs_perm_leafDepths (A : Nat) (t : HTree)
    (hsyms : List.Perm t.syms (List.range A)) :
    List.Perm (symLenPairs (lensOfTree t A)) t.leafDepths := by
  have hfst : t.leafDepths.map Prod.fst = t.syms := HTree.leafDepths_map_fst t
  have hndfst : (t.leafDepths.map Prod.fst).Nodup := by
    rw [hfst]
    exact hsyms.nodup_iff.mpr (List.nodup_range A)
  have hnd : t.leafDepths.Nodup := hndfst.of_map
  have hlens_len : (lensOfTree t A).length = A := by
    simp [lensOfTree]
  have hgetD : ∀ s, s < A → (lensOfTree t A).getD s 0 = lookupD t.leafDepths s := by
    intro s hsA
    have hs2 : s < (lensOfTree t A).length := by omega
    rw [List.getD_eq_getElem _ _ hs2]
    simp [lensOfTree]
  have hmemL : ∀ s, s < A → (s, lookupD t.leafDepths s) ∈ t.leafDepths := by
    intro s hsA
    have hs3 : s ∈ t.syms := hsyms.mem_iff.mpr (List.mem_range.mpr hsA)
    rw [← hfst] at hs3
    obtain ⟨e, he, hefst⟩ := List.mem_map.mp hs3
    have hfind : t.leafDepths.find? (fun p => p.1 == e.1) = some e :=
      find?_fst_eq hndfst he
    rw [hefst] at hfind
    have : lookupD t.leafDepths s = e.2 := by
      rw [lookupD, hfind]
    rw [this]
    have : (s, e.2) = e := by
      rcases e with ⟨e1, e2⟩
      simp only at hefst
      rw [hefst]
    rw [this]
    exact he
  have hLnodup : (symLenPairs (lensOfTree t A)).Nodup := by
    refine List.Nodup.map_on ?_ (List.nodup_range (lensOfTree t A).length)
    intro a _ b _ hab
    exact congrArg Prod.fst hab
  refine (List.perm_ext_iff_of_nodup hLnodup hnd).mpr ?_
  intro p
  simp only [symLenPairs, List.mem_map, List.mem_range, hlens_len]
  constructor
  · rintro ⟨s, hsA, rfl⟩
    rw [hgetD s hsA]
    exact hmemL s hsA
  · intro hp
    have hsA : p.1 < A := by
      have : p.1 ∈ t.leafDepths.map Prod.fst := List.mem_map_of_mem _ hp
      rw [hfst] at this
      exact List.mem_range.mp (hsyms.mem_iff.mp this)
    refine ⟨p.1, hsA, ?_⟩
    rw [hgetD _ hsA]
    have hfind : t.leafDepths.find? (fun q => q.1 == p.1) = some p :=
      find?_fst_eq hndfst hp
    rw [lookupD, hfind]

/-- The Huffman lengths satisfy the decode theorem's hypotheses at
width `A`. -/
theorem huffLengths_spec (A : Nat) (freq : Nat → Nat) (hA : 2 ≤ A) :
    (huffLengths A freq).length = A ∧
    (∀ p ∈ symLenPairs (huffLengths A freq), 1 ≤ p.2 ∧ p.2 ≤ A) ∧
    kraftSum A (symLenPairs (huffLengths A freq)) ≤ 2 ^ A := by
  obtain ⟨t, ht⟩ := huffTree_isSome A freq (by omega)
  obtain ⟨hsyms, a, b, htab⟩ := huffTree_spec A freq t hA ht
  have hlens : huffLengths A freq = lensOfTree t A := by
    rw [huffLengths, ht]
  have hperm := symLenPairs_perm_leafDepths A t hsyms
  have hlenA : t.leafDepths.length = A := by
    have h1 : (t.leafDepths.map Prod.fst).length = t.leafDepths.length := List.length_map _ _
    rw [HTree.leafDepths_map_fst] at h1
    rw [← h1, hsyms.length_eq, List.length_range]
  have hboundA : ∀ p ∈ t.leafDepths, p.2 ≤ A := by
    intro p hp
    have := depth_lt_leaves t p hp
    omega
  refine ⟨by simp [hlens, lensOfTree], ?_, ?_⟩
  · intro p hp
    rw [hlens] at hp
    have hp2 : p ∈ t.leafDepths := hperm.mem_iff.mp hp
    constructor
    · exact node_depths_pos a b p (htab ▸ hp2)
    · exact hboundA p hp2
  · rw [hlens]
    have h1 : kraftSum A (symLenPairs (lensOfTree t A)) =
        kraftSum A t.leafDepths := (hperm.map _).sum_eq
    rw [h1]
    have h2 := kraft t A hboundA
    rw [kraftSum, h2]

end SpecCodec

namespace SpecCodec

/-! ## Serialization primitives -/

/-- Read `k` raw bits. -/
def readRaw (k : Nat) (bs : List Bool) : Option (List Bool × List Bool) :=
  if k ≤ bs.length then some (bs.take k, bs.drop k) else none

theorem readRaw_append (xs rest : List Bool) :
    readRaw xs.length (xs ++ rest) = some (xs, rest) := by
  rw [readRaw, if_pos (by simp), List.take_left, List.drop_left]

/-! ### Delta-coded code lengths (spec section 4.4): only per-symbol code
lengths are serialized, each coded as a bit-flagged unary delta against
the previous symbol's length. -/

/-- Delta-encode one length against the previous one: `10` steps up,
`11` steps down, `0` terminates. -/
def deltaBits (cur target : Nat) : List Bool :=
  (if cur ≤ target then (List.replicate (target - cur) [true, false]).flatten
   else (List.replicate (cur - target) [true, true]).flatten) ++ [false]

/-- Delta-decode one length. -/
def readDelta : Nat → List Bool → Option (Nat × List Bool)
  | _, [] => none
  | cur, false :: bs => some (cur, bs)
  | cur, true :: [] => none
  | cur, true :: false :: bs => readDelta (cur + 1) bs
  | cur, true :: true :: bs => readDelta (cur - 1) bs

theorem readDelta_up (d : Nat) : ∀ (cur : Nat) (rest : List Bool),
    readDelta cur ((List.replicate d [true, false]).flatten ++ false :: rest) =
      some (cur + d, rest) := by
  induction d with
  | zero => intro cur rest; simp [readDelta]
  | succ n ih =>
    intro cur rest
    rw [List.replicate_succ, List.flatten_cons]
    simp only [List.cons_append, List.append_assoc, List.nil_append]
    rw [readDelta, ih (cur + 1) rest]
    have h : cur + 1 + n = cur + (n + 1) := by omega
    rw [h]

theorem readDelta_down (d : Nat) : ∀ (cur : Nat) (rest : List Bool),
    readDelta cur ((List.replicate d [true, true]).flatten ++ false :: rest) =
      some (cur - d, rest) := by
  induction d with
  | zero => intro cur rest; simp [readDelta]
  | succ n ih =>
    intro cur rest
    rw [List.replicate_succ, List.flatten_cons]
    simp only [List.cons_append, List.append_assoc, List.nil_append]
    rw [readDelta, ih (cur - 1) rest]
    have h : cur - 1 - n = cur - (n + 1) := by omega
    rw [h]

theorem readDelta_deltaBits (cur target : Nat) (rest : List Bool) :
    readDelta cur (deltaBits cur target ++ rest) = some (target, rest) := by
  rw [deltaBits]
  by_cases h : cur ≤ target
  · rw [if_pos h]
    rw [List.append_assoc, List.singleton_append, readDelta_up]
    congr 2
    omega
  · rw [if_neg h]
    rw [List.append_assoc, List.singleton_append, readDelta_down]
    congr 2
    omega

/-- Serialize a length table: a 16-bit initial length, then deltas. -/
def encodeLengthsGo : Nat → List Nat → List Bool
  | _, [] => []
  | prev, l :: ls => deltaBits prev l ++ encodeLengthsGo l ls

def encodeLengths (lengths : List Nat) : List Bool :=
  match lengths with
  | [] => []
  | l0 :: rest => natToBits l0 16 ++ encodeLengthsGo l0 rest

/-- Parse a length table of known symbol count. -/
def decodeLengthsGo : Nat → Nat → List Bool → Option (List Nat × List Bool)
  | _, 0, bs => some ([], bs)
  | prev, k + 1, bs =>
    match readDelta prev bs with
    | none => none
    | some (l, bs') =>
      match decodeLengthsGo l k bs' with
      | none => none
      | some (ls, r) => some (l :: ls, r)

def decodeLengths (count : Nat) (bs : List Bool) : Option (List Nat × List Bool) :=
  match count with
  | 0 => some ([], bs)
  | k + 1 =>
    match readBits 16 bs with
    | none => none
    | some (l0, bs') =>
      match decodeLengthsGo l0 k bs' with
      | none => none
      | some (ls, r) => some (l0 :: ls, r)

theorem decodeLengthsGo_encode (ls : List Nat) : ∀ (prev : Nat) (rest : List Bool),
    decodeLengthsGo prev ls.length (encodeLengthsGo prev ls ++ rest) = some (ls, rest) := by
  induction ls with
  | nil => intro prev rest; simp [encodeLengthsGo, decodeLengthsGo]
  | cons l ls ih =>
    intro prev rest
    rw [encodeLengthsGo, List.length_cons, List.append_assoc]
    simp only [decodeLengthsGo, readDelta_deltaBits prev l, ih l rest]

theorem decodeLengths_encode (lengths : List Nat) (h16 : ∀ l ∈ lengths, l < 2 ^ 16)
    (rest : List Bool) :
    decodeLengths lengths.length (encodeLengths lengths ++ rest) = some (lengths, rest) := by
  match lengths with
  | [] => simp [encodeLengths, decodeLengths]
  | l0 :: ls =>
    rw [encodeLengths, List.length_cons, List.append_assoc]
    simp only [decodeLengths, readBits_append l0 16 _ (h16 l0 (List.mem_cons_self _ _)),
      decodeLengthsGo_encode ls l0 rest]

/-! ### Unary-coded, MTF-transformed group selectors -/

/-- Read one unary value (count of 1-bits before a 0). -/
def readUnary : List Bool → Option (Nat × List Bool)
  | [] => none
  | false :: bs => some (0, bs)
  | true :: bs =>
    match readUnary bs with
    | some (k, r) => some (k + 1, r)
    | none => none

def readUnaryList : Nat → List Bool → Option (List Nat × List Bool)
  | 0, bs => some ([], bs)
  | k + 1, bs =>
    match readUnary bs with
    | none => none
    | some (v, bs') =>
      match readUnaryList k bs' with
      | none => none
      | some (vs, r) => some (v :: vs, r)

theorem readUnaryList_zeros (n : Nat) : ∀ (rest : List Bool),
    readUnaryList n (List.replicate n false ++ rest) =
      some (List.replicate n 0, rest) := by
  induction n with
  | zero => intro rest; simp [readUnaryList]
  | succ k ih =>
    intro rest
    rw [List.replicate_succ, List.cons_append]
    simp only [readUnaryList, readUnary, ih rest, List.replicate_succ]

theorem mtfDecode_zero_ranks (t : List Nat) (n : Nat) :
    mtfDecode (0 :: t) (List.replicate n 0) = List.replicate n 0 := by
  induction n with
  | zero => rfl
  | succ k ih =>
    rw [List.replicate_succ, mtfDecode]
    simp only [List.getD_cons_zero, List.erase_cons_head]
    rw [ih]

theorem getD_replicate_zero (n g : Nat) : (List.replicate n (0 : Nat)).getD g 0 = 0 := by
  by_cases h : g < n
  · rw [List.getD_eq_getElem _ _ (by simp; omega)]
    simp
  · rw [List.getD_eq_default]
    simp
    omega

/-! ### Bytes and bits -/

def bytesToBits (B : Bytes) : List Bool :=
  (B.map (fun b => natToBits b 8)).flatten

def bitsToBytes (bs : List Bool) : Bytes :=
  if h : bs.isEmpty then []
  else bitsToNat (bs.take 8) :: bitsToBytes (bs.drop 8)
termination_by bs.length
decreasing_by
  have : bs ≠ [] := by
    intro h0
    rw [h0] at h
    simp at h
  have : 0 < bs.length := List.length_pos.mpr this
  simp
  omega

theorem bitsToBytes_bytesToBits (B : Bytes) (hB : ∀ b ∈ B, b < 256) :
    bitsToBytes (bytesToBits B) = B := by
  induction B with
  | nil =>
    rw [show bytesToBits [] = [] from rfl, bitsToBytes]
    rfl
  | cons b B ih =>
    have hb : b < 256 := hB b (List.mem_cons_self _ _)
    have hlen : (natToBits b 8).length = 8 := natToBits_length b 8
    rw [bytesToBits, List.map_cons, List.flatten_cons]
    rw [bitsToBytes]
    have hne : ((natToBits b 8 ++ (B.map (fun b => natToBits b 8)).flatten).isEmpty) = false := by
      rw [List.isEmpty_eq_false_iff_exists_mem]
      refine ⟨b.testBit 7, ?_⟩
      rw [show (8 : Nat) = 7 + 1 from rfl, natToBits]
      simp
    rw [hne]
    simp only [Bool.false_eq_true, dite_false]
    have htake : (natToBits b 8 ++ (B.map (fun b => natToBits b 8)).flatten).take 8 =
        natToBits b 8 := List.take_left' hlen
    have hdrop : (natToBits b 8 ++ (B.map (fun b => natToBits b 8)).flatten).drop 8 =
        (B.map (fun b => natToBits b 8)).flatten := List.drop_left' hlen
    rw [htake, hdrop, bitsToNat_natToBits_of_lt b 8 hb, ← bytesToBits,
      ih (fun x hx => hB x (List.mem_cons_of_mem _ hx))]

theorem natToBits_mod (w : Nat) : ∀ v : Nat, natToBits (v % 2 ^ w) w = natToBits v w := by
  induction w with
  | zero => intro v; rfl
  | succ n ih =>
    intro v
    rw [natToBits, natToBits]
    congr 1
    · rw [Nat.testBit_mod_two_pow]
      simp
    · have h1 : v % 2 ^ (n + 1) % 2 ^ n = v % 2 ^ n := by
        rw [Nat.mod_mod_of_dvd]
        exact pow_dvd_pow 2 (by omega)
      calc natToBits (v % 2 ^ (n + 1)) n
          = natToBits (v % 2 ^ (n + 1) % 2 ^ n) n := (ih (v % 2 ^ (n + 1))).symm
        _ = natToBits (v % 2 ^ n) n := by rw [h1]
        _ = natToBits v n := ih v

theorem natToBits_bitsToNat (bs : List Bool) :
    natToBits (bitsToNat bs) bs.length = bs := by
  induction bs with
  | nil => rfl
  | cons b bs ih =>
    have h0 : bitsToNat (b :: bs) = (if b then 1 else 0) * 2 ^ bs.length + bitsToNat bs := by
      rw [bitsToNat, List.foldl_cons, bitsToNat_general]
      ring_nf
    have hlt : bitsToNat bs < 2 ^ bs.length := bitsToNat_lt bs
    have hdiv : bitsToNat (b :: bs) / 2 ^ bs.length = (if b then 1 else 0) := by
      rw [h0, Nat.add_comm, Nat.mul_comm,
        Nat.add_mul_div_left _ _ (Nat.pos_pow_of_pos _ (by norm_num)),
        Nat.div_eq_of_lt hlt, Nat.zero_add]
    have hmod : bitsToNat (b :: bs) % 2 ^ bs.length = bitsToNat bs := by
      rw [h0, Nat.add_comm, Nat.mul_comm, Nat.add_mul_mod_self_left,
        Nat.mod_eq_of_lt hlt]
    rw [List.length_cons, natToBits]
    congr 1
    · rw [Nat.testBit_to_div_mod, hdiv]
      cases b <;> simp
    · rw [← natToBits_mod, hmod, ih]

end SpecCodec

namespace SpecCodec

/-! ### Generic list helpers for the framing proofs -/

theorem length_le_length_flatten {α : Type} (ls : List (List α))
    (h : ∀ l ∈ ls, l ≠ []) : ls.length ≤ ls.flatten.length := by
  induction ls with
  | nil => simp
  | cons x xs ih =>
    rw [List.flatten_cons, List.length_cons, List.length_append]
    have hx : x ≠ [] := h x (List.mem_cons_self _ _)
    have h1 : 1 ≤ x.length := by
      cases x with
      | nil => exact absurd rfl hx
      | cons a as => simp
    have h2 := ih (fun l hl => h l (List.mem_cons_of_mem _ hl))
    omega

/-! ### Block segmentation (spec section 3): fixed-size input chunks -/

/-- Split the input into blocks of at most `k` bytes. -/
def chunksOf (k : Nat) (B : Bytes) : List Bytes :=
  if h : B = [] ∨ k = 0 then []
  else B.take k :: chunksOf k (B.drop k)
termination_by B.length
decreasing_by
  push_neg at h
  have h1 : 0 < B.length := List.length_pos.mpr h.1
  have h2 : 0 < k := Nat.pos_of_ne_zero h.2
  simp only [List.length_drop]
  omega

theorem chunksOf_flatten (k : Nat) (B : Bytes) : 0 < k → (chunksOf k B).flatten = B := by
  induction B using chunksOf.induct (k := k) with
  | case1 B h =>
    intro hk
    rw [chunksOf, dif_pos h]
    rcases h with h | h
    · simp [h]
    · omega
  | case2 B h ih =>
    intro hk
    rw [chunksOf, dif_neg h, List.flatten_cons, ih hk, List.take_append_drop]

theorem chunksOf_mem (k : Nat) (B : Bytes) :
    ∀ c ∈ chunksOf k B, c ≠ [] ∧ c.length ≤ k ∧ ∀ x ∈ c, x ∈ B := by
  induction B using chunksOf.induct (k := k) with
  | case1 B h =>
    rw [chunksOf, dif_pos h]
    intro c hc
    cases hc
  | case2 B h ih =>
    rw [chunksOf, dif_neg h]
    push_neg at h
    intro c hc
    rcases List.mem_cons.mp hc with hc | hc
    · subst hc
      refine ⟨?_, List.length_take_le k B, fun x hx => List.mem_of_mem_take hx⟩
      intro heq
      rcases List.take_eq_nil_iff.mp heq with h0 | h0
      · exact h.2 h0
      · exact h.1 h0
    · obtain ⟨h1, h2, h3⟩ := ih c hc
      exact ⟨h1, h2, fun x hx => List.mem_of_mem_drop (h3 x hx)⟩

/-! ### CRC-32 (spec section 5): bitwise, MSB first, polynomial 0x04C11DB7,
initial value and final complement 0xFFFFFFFF. -/

/-- One CRC shift step: shift left, conditionally fold in the polynomial. -/
def crcStep (b : Bool) (r : Nat) : Nat :=
  let t := (r * 2) % 2 ^ 32
  if r.testBit 31 != b then t ^^^ 0x04C11DB7 else t

/-- Block CRC over the data bytes, MSB-first bit order. -/
def crc32 (B : Bytes) : Nat :=
  0xFFFFFFFF ^^^ (bytesToBits B).foldl (fun r b => crcStep b r) 0xFFFFFFFF

theorem crcStep_lt (b : Bool) (r : Nat) : crcStep b r < 2 ^ 32 := by
  rw [crcStep]
  have h1 : (r * 2) % 2 ^ 32 < 2 ^ 32 := Nat.mod_lt _ (by norm_num)
  split
  · exact Nat.xor_lt_two_pow h1 (by norm_num)
  · exact h1

theorem crcFold_lt (bs : List Bool) : ∀ r, r < 2 ^ 32 →
    bs.foldl (fun a b => crcStep b a) r < 2 ^ 32 := by
  induction bs with
  | nil => intro r hr; exact hr
  | cons b bs ih =>
    intro r hr
    rw [List.foldl_cons]
    exact ih _ (crcStep_lt b r)

theorem crc32_lt (B : Bytes) : crc32 B < 2 ^ 32 :=
  Nat.xor_lt_two_pow (by norm_num) (crcFold_lt _ _ (by norm_num))

/-- 32-bit rotate left by one (stream-CRC chaining). -/
def rotl1 (s : Nat) : Nat := (s * 2) % 2 ^ 32 + s / 2 ^ 31 % 2

theorem rotl1_lt (s : Nat) : rotl1 s < 2 ^ 32 := by
  rw [rotl1]
  have h1 : (s * 2) % 2 ^ 32 < 2 ^ 32 := Nat.mod_lt _ (by norm_num)
  have h2 : (s * 2) % 2 ^ 32 % 2 = 0 := by
    rw [Nat.mod_mod_of_dvd _ (by norm_num : (2:Nat) ∣ 2 ^ 32)]
    simp [Nat.mul_mod]
  have h3 : s / 2 ^ 31 % 2 < 2 := Nat.mod_lt _ (by norm_num)
  have h4 : (2:Nat) ^ 32 = 4294967296 := by norm_num
  omega

/-- Stream CRC: each block CRC folded into the rotating running value. -/
def streamCRC (blocks : List Bytes) : Nat :=
  blocks.foldl (fun s b => rotl1 s ^^^ crc32 b) 0

theorem streamCRC_fold_lt (blocks : List Bytes) : ∀ s, s < 2 ^ 32 →
    blocks.foldl (fun s b => rotl1 s ^^^ crc32 b) s < 2 ^ 32 := by
  induction blocks with
  | nil => intro s hs; exact hs
  | cons b bs ih =>
    intro s hs
    rw [List.foldl_cons]
    exact ih _ (Nat.xor_lt_two_pow (rotl1_lt s) (crc32_lt b))

/-! ### Byte/bit framing lemmas -/

theorem bytesToBits_cons (b : Nat) (B : Bytes) :
    bytesToBits (b :: B) = natToBits b 8 ++ bytesToBits B := by
  rw [bytesToBits, bytesToBits, List.map_cons, List.flatten_cons]

theorem bytesToBits_append (a b : Bytes) :
    bytesToBits (a ++ b) = bytesToBits a ++ bytesToBits b := by
  rw [bytesToBits, bytesToBits, bytesToBits, List.map_append, List.flatten_append]

theorem bytesToBits_length (B : Bytes) : (bytesToBits B).length = 8 * B.length := by
  induction B with
  | nil => rfl
  | cons b bs ih =>
    rw [bytesToBits_cons, List.length_append, natToBits_length, ih, List.length_cons]
    ring

theorem bytesToBits_bitsToBytes (n : Nat) : ∀ bs : List Bool, bs.length = 8 * n →
    bytesToBits (bitsToBytes bs) = bs := by
  induction n with
  | zero =>
    intro bs h
    have h0 : bs = [] := List.eq_nil_of_length_eq_zero (by omega)
    subst h0
    rw [bitsToBytes]
    rfl
  | succ k ih =>
    intro bs h
    have hne : bs.isEmpty = false := by
      cases bs with
      | nil => simp at h
      | cons x xs => rfl
    rw [bitsToBytes]
    rw [hne]
    simp only [Bool.false_eq_true, dite_false]
    rw [bytesToBits_cons, ih (bs.drop 8) (by rw [List.length_drop]; omega)]
    have hlen : (bs.take 8).length = 8 := by rw [List.length_take]; omega
    have h1 := natToBits_bitsToNat (bs.take 8)
    rw [hlen] at h1
    rw [h1, List.take_append_drop]

theorem bytesToBits_bitsToBytes_of_mod (bs : List Bool) (h : bs.length % 8 = 0) :
    bytesToBits (bitsToBytes bs) = bs :=
  bytesToBits_bitsToBytes (bs.length / 8) bs (by omega)

theorem bitsToBytes_mem_lt (bs : List Bool) : ∀ b ∈ bitsToBytes bs, b < 256 := by
  induction bs using bitsToBytes.induct with
  | case1 bs h =>
    rw [bitsToBytes, dif_pos h]
    intro b hb
    cases hb
  | case2 bs h ih =>
    rw [bitsToBytes, dif_neg h]
    intro b hb
    rcases List.mem_cons.mp hb with hb | hb
    · subst hb
      have h1 := bitsToNat_lt (bs.take 8)
      have h2 : (2:Nat) ^ (bs.take 8).length ≤ 2 ^ 8 :=
        Nat.pow_le_pow_right (by norm_num) (List.length_take_le 8 bs)
      omega
    · exact ih b hb

/-! ### RLE2 output bounds -/

theorem runDigits_mem_le (z : Nat) : ∀ s ∈ runDigits z, s ≤ 1 := by
  intro s hs
  rw [runDigits] at hs
  obtain ⟨d, hd, rfl⟩ := List.mem_map.mp hs
  rcases bij2Digits_mem z d hd with h | h <;> omega

theorem runDigits_length_le (z : Nat) : (runDigits z).length ≤ z := by
  rw [runDigits, List.length_map]
  exact bij2Digits_length_le z

theorem rle2Go_length_le (ranks : List Nat) : ∀ (z : Nat),
    (rle2Go z ranks).length ≤ z + 2 * ranks.length := by
  induction ranks with
  | nil =>
    intro z
    rw [rle2Go]
    have := runDigits_length_le z
    omega
  | cons r rest ih =>
    intro z
    rw [rle2Go]
    split
    · have h1 := ih (z + 1)
      simp only [List.length_cons]
      omega
    · rw [List.length_append, List.length_cons]
      have h1 := ih 0
      have h2 := runDigits_length_le z
      simp only [List.length_cons]
      omega

theorem rle2Go_mem_lt (m : Nat) (ranks : List Nat) : ∀ (z : Nat),
    (∀ r ∈ ranks, r < m) → (z = 0 ∨ 1 ≤ m) →
    ∀ s ∈ rle2Go z ranks, s < m + 1 := by
  induction ranks with
  | nil =>
    intro z _ hz s hs
    rw [rle2Go] at hs
    have h1 := runDigits_mem_le z s hs
    rcases hz with hz | hz
    · subst hz
      rw [runDigits, bij2Digits] at hs
      simp at hs
    · omega
  | cons r rest ih =>
    intro z hr hz s hs
    rw [rle2Go] at hs
    by_cases h0 : r = 0
    · rw [if_pos h0] at hs
      have hm : 1 ≤ m := by
        have := hr r (List.mem_cons_self _ _)
        omega
      exact ih (z + 1) (fun x hx => hr x (List.mem_cons_of_mem _ hx)) (Or.inr hm) s hs
    · rw [if_neg h0] at hs
      rcases List.mem_append.mp hs with hs | hs
      · have h1 := runDigits_mem_le z s hs
        rcases hz with hz | hz
        · subst hz
          rw [runDigits, bij2Digits] at hs
          simp at hs
        · omega
      · rcases List.mem_cons.mp hs with hs | hs
        · have := hr r (List.mem_cons_self _ _)
          omega
        · exact ih 0 (fun x hx => hr x (List.mem_cons_of_mem _ hx)) (Or.inl rfl) s hs

theorem mtfEncode_length (xs : List Nat) : ∀ (table : List Nat),
    (mtfEncode table xs).length = xs.length := by
  induction xs with
  | nil => intro table; rfl
  | cons x xs ih =>
    intro table
    rw [mtfEncode, List.length_cons, List.length_cons, ih]

end SpecCodec

namespace SpecCodec

/-! ### Canonical-code facts used by the block framing -/

theorem canonGo_map (ps : List (Nat × Nat)) : ∀ (code prevLen : Nat),
    (canonGo code prevLen ps).map (fun e => (e.1, e.2.1)) = ps := by
  induction ps with
  | nil => intro code prevLen; rfl
  | cons p rest ih =>
    intro code prevLen
    obtain ⟨s, len⟩ := p
    rw [canonGo, List.map_cons, ih]

theorem codeFor_length_pos (lengths : List Nat) (s : Nat) (hs : s < lengths.length)
    (hb : ∀ p ∈ symLenPairs lengths, 1 ≤ p.2) : 1 ≤ (codeFor lengths s).length := by
  have hmem : (s, lengths.getD s 0) ∈ symLenPairs lengths := by
    rw [symLenPairs]
    exact List.mem_map.mpr ⟨s, List.mem_range.mpr hs, rfl⟩
  have hmem2 : (s, lengths.getD s 0) ∈ sortedSymLen lengths :=
    (List.perm_insertionSort slLe (symLenPairs lengths)).mem_iff.mpr hmem
  have hmap := canonGo_map (sortedSymLen lengths) 0 0
  have hsome : ((canonAssign lengths).find? (fun e => e.1 == s)).isSome := by
    rw [List.find?_isSome]
    rw [← hmap] at hmem2
    obtain ⟨e, he, heq⟩ := List.mem_map.mp hmem2
    refine ⟨e, he, ?_⟩
    have : e.1 = s := congrArg Prod.fst heq
    simp [this]
  obtain ⟨e, he⟩ := Option.isSome_iff_exists.mp hsome
  rw [codeFor, he, natToBits_length]
  have hm : e ∈ canonAssign lengths := List.mem_of_find?_eq_some he
  have hm2 : (e.1, e.2.1) ∈ sortedSymLen lengths := by
    rw [← hmap]
    exact List.mem_map.mpr ⟨e, hm, rfl⟩
  have hm3 : (e.1, e.2.1) ∈ symLenPairs lengths :=
    (List.perm_insertionSort slLe (symLenPairs lengths)).mem_iff.mp hm2
  exact hb _ hm3

theorem huffLengths_mem_le (A : Nat) (freq : Nat → Nat) (hA : 2 ≤ A) :
    ∀ l ∈ huffLengths A freq, l ≤ A := by
  obtain ⟨hlen, hb, -⟩ := huffLengths_spec A freq hA
  intro l hl
  obtain ⟨i, hi, hig⟩ := List.mem_iff_getElem.mp hl
  have hp : (i, l) ∈ symLenPairs (huffLengths A freq) := by
    rw [symLenPairs]
    refine List.mem_map.mpr ⟨i, List.mem_range.mpr hi, ?_⟩
    rw [List.getD_eq_getElem _ _ hi, hig]
  exact (hb _ hp).2

/-! ### The used-symbol map (spec section 4.5) -/

/-- The 256-bit symbol-presence bitmap of a block. -/
def usedBitsOf (blk : Bytes) : List Bool :=
  (List.range 256).map (fun i => decide (i ∈ blk))

/-- The used symbols of a block, in increasing order. -/
def usedListOf (blk : Bytes) : List Nat :=
  (List.range 256).filter (fun i => decide (i ∈ blk))

theorem usedBitsOf_length (blk : Bytes) : (usedBitsOf blk).length = 256 := by
  rw [usedBitsOf, List.length_map, List.length_range]

theorem usedList_decode (blk : Bytes) :
    (List.range 256).filter (fun i => (usedBitsOf blk).getD i false) = usedListOf blk := by
  rw [usedListOf]
  apply List.filter_congr
  intro i hi
  have hi' : i < 256 := List.mem_range.mp hi
  have hlt : i < (usedBitsOf blk).length := by rw [usedBitsOf_length]; omega
  rw [List.getD_eq_getElem _ _ hlt]
  simp [usedBitsOf]

theorem mem_usedListOf (blk : Bytes) (x : Nat) (hx : x < 256) (hmem : x ∈ blk) :
    x ∈ usedListOf blk := by
  rw [usedListOf]
  exact List.mem_filter.mpr ⟨List.mem_range.mpr hx, by simp [hmem]⟩

theorem usedListOf_length_le (blk : Bytes) : (usedListOf blk).length ≤ 256 := by
  rw [usedListOf]
  have h := List.length_filter_le (fun i => decide (i ∈ blk)) (List.range 256)
  simpa using h

/-! ### BWT framing facts -/

theorem bwtEncode_fst_length (l : List Nat) : (bwtEncode l).1.length = l.length := by
  rw [bwtEncode]
  simp [sortedRows_length]

theorem bwtEncode_fst_perm (l : List Nat) (hl : l ≠ []) :
    List.Perm (bwtEncode l).1 l :=
  lasts_sortedRows_perm l hl

theorem bwtEncode_ptr_lt (l : List Nat) (hl : l ≠ []) : (bwtEncode l).2 < l.length := by
  have hpos : 0 < l.length := List.length_pos.mpr hl
  have hmem : (l.rotate 0, 0) ∈ rots l := by
    rw [rots]
    exact List.mem_map.mpr ⟨0, List.mem_range.mpr hpos, rfl⟩
  have hmem2 : (l.rotate 0, 0) ∈ sortedRows l :=
    (sortedRows_perm l).mem_iff.mpr hmem
  have h3 : (sortedRows l).findIdx (fun p => p.2 == 0) < (sortedRows l).length :=
    List.findIdx_lt_length_of_exists ⟨_, hmem2, by simp⟩
  rw [sortedRows_length] at h3
  exact h3

end SpecCodec

namespace SpecCodec

/-! ### Huffman-coded symbol stream (spec section 4.6): symbols are coded
in groups of 50, each group's table chosen by its selector; decoding stops
at the end-of-block symbol. -/

/-- Encode a symbol sequence, switching tables every 50 symbols. -/
def encodeSymsGo (tabs : List (List Nat)) (sels : List Nat) : Nat → List Nat → List Bool
  | _, [] => []
  | count, s :: ss =>
    codeFor (tabs.getD (sels.getD (count / 50) 0) []) s ++
      encodeSymsGo tabs sels (count + 1) ss

/-- Decode symbols until the end-of-block symbol, switching tables every
50 symbols; the fuel bounds the number of symbols. -/
def decodeSyms (eob : Nat) (tables : List (List (List Bool × Nat))) (sels : List Nat) :
    Nat → Nat → List Bool → Option (List Nat × List Bool)
  | 0, _, _ => none
  | fuel + 1, count, bs =>
    match decodeSym (tables.getD (sels.getD (count / 50) 0) []) bs with
    | none => none
    | some (s, bs') =>
      if s = eob then some ([], bs')
      else
        match decodeSyms eob tables sels fuel (count + 1) bs' with
        | none => none
        | some (ss, r) => some (s :: ss, r)

/-- With two identical tables and all-zero selectors the group structure
is inert: encoding is plain concatenation of codewords. -/
theorem encodeSymsGo_two_eq (L : List Nat) (n : Nat) (syms : List Nat) : ∀ (count : Nat),
    encodeSymsGo [L, L] (List.replicate n 0) count syms = (syms.map (codeFor L)).flatten := by
  induction syms with
  | nil => intro count; rfl
  | cons s ss ih =>
    intro count
    rw [encodeSymsGo, getD_replicate_zero]
    simp only [List.getD_cons_zero]
    rw [ih, List.map_cons, List.flatten_cons]

theorem encodeSymsGo_two_length (L : List Nat) (n : Nat) (syms : List Nat) (count : Nat)
    (hpos : ∀ s ∈ syms, 1 ≤ (codeFor L s).length) :
    syms.length ≤ (encodeSymsGo [L, L] (List.replicate n 0) count syms).length := by
  rw [encodeSymsGo_two_eq]
  have h1 : (syms.map (codeFor L)).length ≤ (syms.map (codeFor L)).flatten.length := by
    apply length_le_length_flatten
    intro l hl
    obtain ⟨s, hs, rfl⟩ := List.mem_map.mp hl
    intro h0
    have h2 := hpos s hs
    rw [h0] at h2
    simp at h2
  rw [List.length_map] at h1
  exact h1

/-- Symbol-stream round trip: decoding the encoded payload plus the
end-of-block marker recovers the payload and stops exactly at it. -/
theorem decodeSyms_encode (L : List Nat) (eob : Nat) (n : Nat) (syms : List Nat) :
    ∀ (count fuel : Nat) (rest : List Bool),
    (∀ s, (s ∈ syms ∨ s = eob) → ∀ r : List Bool,
       decodeSym (codeTable L) (codeFor L s ++ r) = some (s, r)) →
    (∀ s ∈ syms, s ≠ eob) →
    syms.length < fuel →
    decodeSyms eob [codeTable L, codeTable L] (List.replicate n 0) fuel count
      (encodeSymsGo [L, L] (List.replicate n 0) count (syms ++ [eob]) ++ rest) =
      some (syms, rest) := by
  induction syms with
  | nil =>
    intro count fuel rest HD _ hfuel
    cases fuel with
    | zero => omega
    | succ f =>
      rw [List.nil_append, encodeSymsGo_two_eq, List.map_cons, List.map_nil,
        List.flatten_cons, List.flatten_nil, List.append_nil]
      simp only [decodeSyms, getD_replicate_zero, List.getD_cons_zero,
        HD eob (Or.inr rfl), if_pos]
  | cons s ss ih =>
    intro count fuel rest HD hne hfuel
    cases fuel with
    | zero => omega
    | succ f =>
      have hne_s : s ≠ eob := hne s (List.mem_cons_self _ _)
      have HD' : ∀ x, (x ∈ ss ∨ x = eob) → ∀ r : List Bool,
          decodeSym (codeTable L) (codeFor L x ++ r) = some (x, r) := by
        intro x hx r
        rcases hx with hx | hx
        · exact HD x (Or.inl (List.mem_cons_of_mem _ hx)) r
        · exact HD x (Or.inr hx) r
      have hne' : ∀ x ∈ ss, x ≠ eob := fun x hx => hne x (List.mem_cons_of_mem _ hx)
      have hf' : ss.length < f := by
        rw [List.length_cons] at hfuel
        omega
      have ihx := ih (count + 1) f rest HD' hne' hf'
      rw [List.cons_append, encodeSymsGo, getD_replicate_zero]
      simp only [List.getD_cons_zero]
      rw [List.append_assoc]
      simp only [decodeSyms, getD_replicate_zero, List.getD_cons_zero,
        HD s (Or.inl (List.mem_cons_self _ _)), if_neg hne_s, ihx]

end SpecCodec

namespace SpecCodec

/-! ### Block framing (spec section 4): the compressed block

Modelled from the spec: the compression engine lives in external crates,
so the block layout follows the spec's description, with the encoder
freedoms fixed as: two identical Huffman tables, all-zero selectors,
count-plus-one symbol frequencies, a 16-bit initial code length, and
24-bit selector-count and origin-pointer fields. -/

/-- The RLE2 symbol payload of a block (before the end-of-block marker). -/
def blockPayload (blk : Bytes) : List Nat :=
  rle2Encode (mtfEncode (usedListOf blk) (bwtEncode blk).1)

/-- The full symbol sequence of a block, ending in the EOB symbol. -/
def blockSyms (blk : Bytes) : List Nat :=
  blockPayload blk ++ [(usedListOf blk).length + 1]

/-- Number of 50-symbol groups (one selector each). -/
def nSelOf (blk : Bytes) : Nat := ((blockSyms blk).length + 49) / 50

/-- The block's Huffman code lengths (smoothed symbol frequencies). -/
def blockLens (blk : Bytes) : List Nat :=
  huffLengths ((usedListOf blk).length + 2) (fun s => (blockSyms blk).count s + 1)

/-- Serialize one block after the block magic: CRC, randomization flag,
origin pointer, used map, table count, selectors, code lengths (twice),
and the Huffman-coded symbols. -/
def encodeBlockBody (blk : Bytes) : List Bool :=
  natToBits (crc32 blk) 32 ++ [false] ++ natToBits (bwtEncode blk).2 24 ++
  usedBitsOf blk ++ natToBits 2 3 ++ natToBits (nSelOf blk) 24 ++
  List.replicate (nSelOf blk) false ++
  encodeLengths (blockLens blk) ++ encodeLengths (blockLens blk) ++
  encodeSymsGo [blockLens blk, blockLens blk] (List.replicate (nSelOf blk) 0) 0 (blockSyms blk)

def encodeBlock (blk : Bytes) : List Bool :=
  natToBits 0x314159265359 48 ++ encodeBlockBody blk

/-- Parse one block after the block magic and invert the whole pipeline;
any malformed field yields `none`. -/
def decodeBlock (bs : List Bool) : Option (Bytes × List Bool) :=
  match readBits 32 bs with
  | none => none
  | some (storedCRC, bs1) =>
    match readRaw 1 bs1 with
    | none => none
    | some (rb, bs2) =>
      if rb = [false] then
        match readBits 24 bs2 with
        | none => none
        | some (ptr, bs3) =>
          match readRaw 256 bs3 with
          | none => none
          | some (u, bs4) =>
            let usedList := (List.range 256).filter (fun i => u.getD i false)
            let m := usedList.length
            match readBits 3 bs4 with
            | none => none
            | some (nt, bs5) =>
              if nt = 2 then
                match readBits 24 bs5 with
                | none => none
                | some (nSel, bs6) =>
                  match readUnaryList nSel bs6 with
                  | none => none
                  | some (rawSels, bs7) =>
                    let sels := mtfDecode (List.range 2) rawSels
                    match decodeLengths (m + 2) bs7 with
                    | none => none
                    | some (L1, bs8) =>
                      match decodeLengths (m + 2) bs8 with
                      | none => none
                      | some (L2, bs9) =>
                        match decodeSyms (m + 1) [codeTable L1, codeTable L2] sels
                            (bs9.length + 1) 0 bs9 with
                        | none => none
                        | some (syms, bs10) =>
                          match bwtDecode (mtfDecode usedList (rle2Decode syms)) ptr with
                          | none => none
                          | some blk =>
                            if crc32 blk = storedCRC then some (blk, bs10) else none
              else none
      else none

/-- Block round trip: decoding an encoded block body recovers the block
and the trailing bits. -/
theorem decodeBlock_encode (blk : Bytes) (hne : blk ≠ [])
    (hlen : blk.length ≤ 900000) (hB : ∀ b ∈ blk, b < 256) (rest : List Bool) :
    decodeBlock (encodeBlockBody blk ++ rest) = some (blk, rest) := by
  have hm256 : (usedListOf blk).length ≤ 256 := usedListOf_length_le blk
  have hA : 2 ≤ (usedListOf blk).length + 2 := by omega
  obtain ⟨hLlen, hbW, hkraft⟩ :=
    huffLengths_spec ((usedListOf blk).length + 2)
      (fun s => (blockSyms blk).count s + 1) hA
  have hbW' : ∀ p ∈ symLenPairs (blockLens blk),
      1 ≤ p.2 ∧ p.2 ≤ (usedListOf blk).length + 2 := hbW
  have hkraft' : kraftSum ((usedListOf blk).length + 2) (symLenPairs (blockLens blk)) ≤
      2 ^ ((usedListOf blk).length + 2) := hkraft
  have hLl : (blockLens blk).length = (usedListOf blk).length + 2 := hLlen
  have h16 : ∀ l ∈ blockLens blk, l < 2 ^ 16 := by
    intro l hl
    have h1 : l ≤ (usedListOf blk).length + 2 := huffLengths_mem_le _ _ hA l hl
    have h2 : (2:Nat) ^ 16 = 65536 := by norm_num
    omega
  have hmemtab : ∀ x ∈ (bwtEncode blk).1, x ∈ usedListOf blk := by
    intro x hx
    have hxblk : x ∈ blk := (bwtEncode_fst_perm blk hne).mem_iff.mp hx
    exact mem_usedListOf blk x (hB x hxblk) hxblk
  have hranks : ∀ r ∈ mtfEncode (usedListOf blk) (bwtEncode blk).1,
      r < (usedListOf blk).length := mtfEncode_ranks_lt _ _ hmemtab
  have hP : ∀ s ∈ blockPayload blk, s < (usedListOf blk).length + 1 := by
    intro s hs
    rw [blockPayload, rle2Encode] at hs
    exact rle2Go_mem_lt _ _ 0 hranks (Or.inl rfl) s hs
  have hneeob : ∀ s ∈ blockPayload blk, s ≠ (usedListOf blk).length + 1 := by
    intro s hs
    have := hP s hs
    omega
  have HD : ∀ s, (s ∈ blockPayload blk ∨ s = (usedListOf blk).length + 1) →
      ∀ r : List Bool,
        decodeSym (codeTable (blockLens blk)) (codeFor (blockLens blk) s ++ r) =
          some (s, r) := by
    intro s hs r
    have hslt : s < (blockLens blk).length := by
      rw [hLl]
      rcases hs with hs | hs
      · have := hP s hs; omega
      · omega
    exact decodeSym_codeFor (blockLens blk) ((usedListOf blk).length + 2) hbW' hkraft' s hslt r
  have hpos : ∀ s ∈ blockSyms blk, 1 ≤ (codeFor (blockLens blk) s).length := by
    intro s hs
    refine codeFor_length_pos _ s ?_ (fun p hp => (hbW' p hp).1)
    rw [hLl]
    rw [blockSyms] at hs
    rcases List.mem_append.mp hs with hs | hs
    · have := hP s hs; omega
    · have := List.mem_singleton.mp hs; omega
  have hfuel : (blockPayload blk).length <
      (encodeSymsGo [blockLens blk, blockLens blk] (List.replicate (nSelOf blk) 0) 0
        (blockPayload blk ++ [(usedListOf blk).length + 1]) ++ rest).length + 1 := by
    have h1 := encodeSymsGo_two_length (blockLens blk) (nSelOf blk) (blockSyms blk) 0 hpos
    rw [blockSyms] at h1
    have h2 : (blockPayload blk ++ [(usedListOf blk).length + 1]).length =
        (blockPayload blk).length + 1 := by simp
    rw [h2] at h1
    rw [List.length_append]
    omega
  have e10 := decodeSyms_encode (blockLens blk) ((usedListOf blk).length + 1) (nSelOf blk)
    (blockPayload blk) 0
    ((encodeSymsGo [blockLens blk, blockLens blk] (List.replicate (nSelOf blk) 0) 0
      (blockPayload blk ++ [(usedListOf blk).length + 1]) ++ rest).length + 1)
    rest HD hneeob hfuel
  have e1 : ∀ X : List Bool, readBits 32 (natToBits (crc32 blk) 32 ++ X) =
      some (crc32 blk, X) := fun X => readBits_append _ 32 X (crc32_lt blk)
  have e2 : ∀ X : List Bool, readRaw 1 ([false] ++ X) = some ([false], X) :=
    fun X => readRaw_append [false] X
  have e3 : ∀ X : List Bool, readBits 24 (natToBits (bwtEncode blk).2 24 ++ X) =
      some ((bwtEncode blk).2, X) := by
    intro X
    apply readBits_append
    have h1 := bwtEncode_ptr_lt blk hne
    have h24 : (2:Nat) ^ 24 = 16777216 := by norm_num
    omega
  have e4 : ∀ X : List Bool, readRaw 256 (usedBitsOf blk ++ X) = some (usedBitsOf blk, X) := by
    intro X
    have h := readRaw_append (usedBitsOf blk) X
    rw [usedBitsOf_length] at h
    exact h
  have e5 : ∀ X : List Bool, readBits 3 (natToBits 2 3 ++ X) = some (2, X) :=
    fun X => readBits_append 2 3 X (by norm_num)
  have e6 : ∀ X : List Bool, readBits 24 (natToBits (nSelOf blk) 24 ++ X) =
      some (nSelOf blk, X) := by
    intro X
    apply readBits_append
    have h1 : nSelOf blk ≤ (blockSyms blk).length + 49 := Nat.div_le_self _ _
    have h2 : (blockSyms blk).length = (blockPayload blk).length + 1 := by
      rw [blockSyms]; simp
    have h3 : (blockPayload blk).length ≤ 2 * blk.length := by
      rw [blockPayload, rle2Encode]
      have h4 := rle2Go_length_le (mtfEncode (usedListOf blk) (bwtEncode blk).1) 0
      rw [mtfEncode_length, bwtEncode_fst_length] at h4
      omega
    have h24 : (2:Nat) ^ 24 = 16777216 := by norm_num
    omega
  have e7 : ∀ X : List Bool, readUnaryList (nSelOf blk)
      (List.replicate (nSelOf blk) false ++ X) = some (List.replicate (nSelOf blk) 0, X) :=
    fun X => readUnaryList_zeros _ X
  have e8 : mtfDecode (List.range 2) (List.replicate (nSelOf blk) 0) =
      List.replicate (nSelOf blk) 0 := by
    have h : List.range 2 = 0 :: [1] := rfl
    rw [h]
    exact mtfDecode_zero_ranks [1] (nSelOf blk)
  have e9 : ∀ X : List Bool, decodeLengths ((usedListOf blk).length + 2)
      (encodeLengths (blockLens blk) ++ X) = some (blockLens blk, X) := by
    intro X
    have h := decodeLengths_encode (blockLens blk) h16 X
    rw [hLl] at h
    exact h
  have e14 := usedList_decode blk
  have e11 : rle2Decode (blockPayload blk) = mtfEncode (usedListOf blk) (bwtEncode blk).1 :=
    rle2Decode_rle2Encode _
  have e12 : mtfDecode (usedListOf blk) (mtfEncode (usedListOf blk) (bwtEncode blk).1) =
      (bwtEncode blk).1 := mtfDecode_mtfEncode _ _ hmemtab
  have e13 : bwtDecode (bwtEncode blk).1 (bwtEncode blk).2 = some blk :=
    bwtDecode_bwtEncode blk hne
  rw [encodeBlockBody]
  simp only [List.append_assoc]
  simp only [decodeBlock, blockSyms, e1, e2, e3, e4, e5, e6, e7, e8, e9, e14, e10, e11, e12,
    e13, eq_self_iff_true, if_true]

end SpecCodec

namespace SpecCodec

/-! ### Stream framing (spec sections 3 and 5): blocks between the stream
header and the end-of-stream marker, then the stream CRC; the whole
stream is padded to a byte boundary. -/

/-- Scan blocks until the end-of-stream magic, chaining the stream CRC;
`acc` is the running stream CRC over the blocks already decoded. -/
def decodeBlocks : Nat → Nat → List Bool → Option (List Bytes × List Bool)
  | 0, _, _ => none
  | fuel + 1, acc, bs =>
    match readBits 48 bs with
    | none => none
    | some (magic, bs1) =>
      if magic = 0x177245385090 then
        match readBits 32 bs1 with
        | none => none
        | some (c, bs2) => if c = acc then some ([], bs2) else none
      else if magic = 0x314159265359 then
        match decodeBlock bs1 with
        | none => none
        | some (blk, bs2) =>
          match decodeBlocks fuel (rotl1 acc ^^^ crc32 blk) bs2 with
          | none => none
          | some (bks, r) => some (blk :: bks, r)
      else none

theorem encodeBlock_ne_nil (blk : Bytes) : encodeBlock blk ≠ [] := by
  intro h0
  have h1 := congrArg List.length h0
  rw [encodeBlock, List.length_append, natToBits_length] at h1
  simp at h1

/-- Multi-block round trip: scanning the concatenated encoded blocks,
the end-of-stream magic and the matching stream CRC yields the blocks. -/
theorem decodeBlocks_encode (blocks : List Bytes)
    (hgood : ∀ blk ∈ blocks, blk ≠ [] ∧ blk.length ≤ 900000 ∧ ∀ b ∈ blk, b < 256) :
    ∀ (acc fuel : Nat) (rest : List Bool), acc < 2 ^ 32 → blocks.length < fuel →
    decodeBlocks fuel acc
      ((blocks.map encodeBlock).flatten ++ natToBits 0x177245385090 48 ++
        natToBits (blocks.foldl (fun s b => rotl1 s ^^^ crc32 b) acc) 32 ++ rest) =
      some (blocks, rest) := by
  induction blocks with
  | nil =>
    intro acc fuel rest hacc hfuel
    cases fuel with
    | zero => omega
    | succ f =>
      rw [List.map_nil, List.flatten_nil, List.nil_append, List.foldl_nil]
      simp only [List.append_assoc]
      have em : (0x177245385090 : Nat) < 2 ^ 48 := by norm_num
      simp only [decodeBlocks, readBits_append _ 48 _ em, readBits_append _ 32 _ hacc,
        eq_self_iff_true, if_true]
  | cons blk blocks ih =>
    intro acc fuel rest hacc hfuel
    cases fuel with
    | zero => omega
    | succ f =>
      obtain ⟨h1, h2, h3⟩ := hgood blk (List.mem_cons_self _ _)
      have hgood' : ∀ b ∈ blocks, b ≠ [] ∧ b.length ≤ 900000 ∧ ∀ x ∈ b, x < 256 :=
        fun b hb => hgood b (List.mem_cons_of_mem _ hb)
      have hacc' : rotl1 acc ^^^ crc32 blk < 2 ^ 32 :=
        Nat.xor_lt_two_pow (rotl1_lt acc) (crc32_lt blk)
      have hfuel' : blocks.length < f := by
        rw [List.length_cons] at hfuel
        omega
      have ihx := ih hgood' (rotl1 acc ^^^ crc32 blk) f rest hacc' hfuel'
      simp only [List.append_assoc] at ihx
      rw [List.map_cons, List.flatten_cons, List.foldl_cons, encodeBlock]
      simp only [List.append_assoc]
      have hbm : (0x314159265359 : Nat) < 2 ^ 48 := by norm_num
      have hne48 : ¬((0x314159265359 : Nat) = 0x177245385090) := by norm_num
      simp only [decodeBlocks, readBits_append _ 48 _ hbm, if_neg hne48,
        eq_self_iff_true, if_true, decodeBlock_encode blk h1 h2 h3, ihx]

/-- All bits of one stream, before byte padding. -/
def streamBits (level : Nat) (B : Bytes) : List Bool :=
  natToBits 0x425A68 24 ++ natToBits (48 + level) 8 ++
    ((chunksOf (level * 100000) B).map encodeBlock).flatten ++
    natToBits 0x177245385090 48 ++
    natToBits (streamCRC (chunksOf (level * 100000) B)) 32

/-- Compress: split into blocks of `level * 100000` bytes, frame them,
pad to a whole number of bytes. -/
def compress (B : Bytes) (level : Nat) : Bytes :=
  bitsToBytes (streamBits level B ++
    List.replicate ((8 - (streamBits level B).length % 8) % 8) false)

/-- Decompress a sequence of concatenated streams; empty input means no
further stream. -/
def decompressGo : Nat → Bytes → Option Bytes
  | 0, _ => none
  | fuel + 1, B =>
    if B = [] then some []
    else
      match readBits 24 (bytesToBits B) with
      | none => none
      | some (hdr, r1) =>
        if hdr = 0x425A68 then
          match readBits 8 r1 with
          | none => none
          | some (hl, r2) =>
            if 49 ≤ hl ∧ hl ≤ 57 then
              match decodeBlocks (r2.length + 1) 0 r2 with
              | none => none
              | some (bks, rest) =>
                match decompressGo fuel (bitsToBytes (rest.drop (rest.length % 8))) with
                | none => none
                | some t => some (bks.flatten ++ t)
            else none
        else none

def decompress (B : Bytes) : Option Bytes := decompressGo (B.length + 1) B

theorem decompressGo_nil (fuel : Nat) (h : 0 < fuel) : decompressGo fuel [] = some [] := by
  cases fuel with
  | zero => omega
  | succ f => rw [decompressGo, if_pos rfl]

theorem bitsToBytes_ne_nil (bs : List Bool) (h : bs ≠ []) : bitsToBytes bs ≠ [] := by
  rw [bitsToBytes]
  have h0 : bs.isEmpty = false := by
    cases bs with
    | nil => exact absurd rfl h
    | cons x xs => rfl
  rw [h0]
  simp

theorem streamBits_length_ge (level : Nat) (B : Bytes) : 24 ≤ (streamBits level B).length := by
  rw [streamBits]
  simp only [List.length_append, natToBits_length]
  omega

theorem compress_ne_nil (B : Bytes) (level : Nat) : compress B level ≠ [] := by
  rw [compress]
  apply bitsToBytes_ne_nil
  intro h0
  have h1 := congrArg List.length h0
  rw [List.length_append, List.length_nil] at h1
  have h2 := streamBits_length_ge level B
  omega

/-- One stream step: decompressing a compressed stream followed by
arbitrary further bytes yields the stream's data followed by whatever
the remaining bytes decompress to. -/
theorem decompress_stream_step (B : Bytes) (level : Nat) (h1 : 1 ≤ level) (h9 : level ≤ 9)
    (hB : ∀ b ∈ B, b < 256) (tailB : Bytes) (htail : ∀ b ∈ tailB, b < 256) (fuel : Nat) :
    decompressGo (fuel + 1) (compress B level ++ tailB) =
      (decompressGo fuel tailB).map (fun t => B ++ t) := by
  have hk0 : 0 < level * 100000 := by omega
  have hk9 : level * 100000 ≤ 900000 := by omega
  have hgood : ∀ blk ∈ chunksOf (level * 100000) B,
      blk ≠ [] ∧ blk.length ≤ 900000 ∧ ∀ b ∈ blk, b < 256 := by
    intro blk hblk
    obtain ⟨ha, hb, hc⟩ := chunksOf_mem (level * 100000) B blk hblk
    exact ⟨ha, by omega, fun x hx => hB x (hc x hx)⟩
  have hp8 : (8 - (streamBits level B).length % 8) % 8 < 8 := Nat.mod_lt _ (by norm_num)
  have hpad : (streamBits level B ++
      List.replicate ((8 - (streamBits level B).length % 8) % 8) false).length % 8 = 0 := by
    rw [List.length_append, List.length_replicate]
    rcases Nat.eq_zero_or_pos ((streamBits level B).length % 8) with h | h
    · rw [h]
      omega
    · have h8 : (streamBits level B).length % 8 < 8 := Nat.mod_lt _ (by norm_num)
      have h9' : (8 - (streamBits level B).length % 8) % 8 =
          8 - (streamBits level B).length % 8 := Nat.mod_eq_of_lt (by omega)
      rw [h9']
      omega
  have hne_cat : ¬(compress B level ++ tailB = []) := by
    intro h0
    exact compress_ne_nil B level (List.append_eq_nil.mp h0).1
  have ebits : bytesToBits (compress B level ++ tailB) =
      natToBits 0x425A68 24 ++ (natToBits (48 + level) 8 ++
        (((chunksOf (level * 100000) B).map encodeBlock).flatten ++
          (natToBits 0x177245385090 48 ++
            (natToBits ((chunksOf (level * 100000) B).foldl
                (fun s b => rotl1 s ^^^ crc32 b) 0) 32 ++
              (List.replicate ((8 - (streamBits level B).length % 8) % 8) false ++
                bytesToBits tailB))))) := by
    rw [bytesToBits_append, compress, bytesToBits_bitsToBytes_of_mod _ hpad, streamBits,
      streamCRC]
    simp only [List.append_assoc]
  have eh24 : ∀ X : List Bool, readBits 24 (natToBits 0x425A68 24 ++ X) =
      some (0x425A68, X) := fun X => readBits_append _ 24 X (by norm_num)
  have eh8 : ∀ X : List Bool, readBits 8 (natToBits (48 + level) 8 ++ X) =
      some (48 + level, X) := by
    intro X
    apply readBits_append
    have : (2:Nat) ^ 8 = 256 := by norm_num
    omega
  have hcond : 49 ≤ 48 + level ∧ 48 + level ≤ 57 := by omega
  have hbl : (chunksOf (level * 100000) B).length ≤
      (((chunksOf (level * 100000) B).map encodeBlock).flatten).length := by
    have h := length_le_length_flatten ((chunksOf (level * 100000) B).map encodeBlock) ?_
    · rw [List.length_map] at h
      exact h
    · intro l hl
      obtain ⟨c, hc, rfl⟩ := List.mem_map.mp hl
      exact encodeBlock_ne_nil c
  have edecb := decodeBlocks_encode (chunksOf (level * 100000) B) hgood 0
    ((((chunksOf (level * 100000) B).map encodeBlock).flatten ++
      (natToBits 0x177245385090 48 ++
        (natToBits ((chunksOf (level * 100000) B).foldl
            (fun s b => rotl1 s ^^^ crc32 b) 0) 32 ++
          (List.replicate ((8 - (streamBits level B).length % 8) % 8) false ++
            bytesToBits tailB)))).length + 1)
    (List.replicate ((8 - (streamBits level B).length % 8) % 8) false ++ bytesToBits tailB)
    (by norm_num)
    (by
      simp only [List.length_append]
      omega)
  simp only [List.append_assoc] at edecb
  have hlp : (List.replicate ((8 - (streamBits level B).length % 8) % 8) false).length =
      (8 - (streamBits level B).length % 8) % 8 := List.length_replicate _ _
  have hmod : (List.replicate ((8 - (streamBits level B).length % 8) % 8) false ++
      bytesToBits tailB).length % 8 = (8 - (streamBits level B).length % 8) % 8 := by
    rw [List.length_append, hlp, bytesToBits_length]
    omega
  have edrop : (List.replicate ((8 - (streamBits level B).length % 8) % 8) false ++
      bytesToBits tailB).drop
        ((List.replicate ((8 - (streamBits level B).length % 8) % 8) false ++
          bytesToBits tailB).length % 8) = bytesToBits tailB := by
    rw [hmod]
    exact List.drop_left' hlp
  have ebt : bitsToBytes (bytesToBits tailB) = tailB := bitsToBytes_bytesToBits tailB htail
  have eflat : (chunksOf (level * 100000) B).flatten = B := chunksOf_flatten _ _ hk0
  rw [decompressGo, if_neg hne_cat]
  simp only [ebits, eh24, eh8, eq_self_iff_true, if_true, hcond, and_self, edecb,
    edrop, ebt, eflat]
  cases decompressGo fuel tailB <;> rfl

end SpecCodec

/-- C1. Round trip: for every byte sequence (empty included) and every
compression level 1..9, decompressing the compressed stream yields
exactly the original bytes. Modelled from the spec: the codec itself
lives in external crates, so compression and decompression here are the
spec's pipeline (block split, BWT, MTF, RLE2, canonical Huffman, CRC
framing) with the encoder freedoms fixed as documented at the
definitions. -/
theorem C1_roundtrip (B : Bytes) (level : Nat) (h1 : 1 ≤ level) (h9 : level ≤ 9)
    (hB : ∀ b ∈ B, b < 256) :
    SpecCodec.decompress (SpecCodec.compress B level) = some B := by
  rw [SpecCodec.decompress]
  have step := SpecCodec.decompress_stream_step B level h1 h9 hB []
    (by intro b hb; cases hb) (SpecCodec.compress B level).length
  rw [List.append_nil] at step
  rw [step]
  have hpos : 0 < (SpecCodec.compress B level).length :=
    List.length_pos.mpr (SpecCodec.compress_ne_nil B level)
  rw [SpecCodec.decompressGo_nil _ hpos]
  simp

/-- Concrete C1 instance: the bytes of "AAA" at level 1 survive the round
trip. -/
theorem C1_roundtrip_witness :
    ((1:Nat) ≤ 1 ∧ (1:Nat) ≤ 9 ∧ ∀ b ∈ ([65, 65, 65] : Bytes), b < 256) ∧
      SpecCodec.decompress (SpecCodec.compress [65, 65, 65] 1) = some [65, 65, 65] :=
  ⟨⟨le_refl 1, by norm_num, by decide⟩,
    C1_roundtrip [65, 65, 65] 1 (le_refl 1) (by norm_num) (by decide)⟩

/-- C2. Concatenated streams: decompressing the concatenation of two
independently compressed streams yields the concatenation of their
contents — the decoder resumes after an end-of-stream terminator when
more header bytes follow. Modelled from the spec, like C1. -/
theorem C2_concat_streams (B1 B2 : Bytes) (l1 l2 : Nat)
    (h11 : 1 ≤ l1) (h19 : l1 ≤ 9) (h21 : 1 ≤ l2) (h29 : l2 ≤ 9)
    (hB1 : ∀ b ∈ B1, b < 256) (hB2 : ∀ b ∈ B2, b < 256) :
    SpecCodec.decompress (SpecCodec.compress B1 l1 ++ SpecCodec.compress B2 l2) =
      some (B1 ++ B2) := by
  rw [SpecCodec.decompress]
  have hc2 : ∀ b ∈ SpecCodec.compress B2 l2, b < 256 := by
    rw [SpecCodec.compress]
    exact SpecCodec.bitsToBytes_mem_lt _
  have hlen : (SpecCodec.compress B1 l1 ++ SpecCodec.compress B2 l2).length =
      (SpecCodec.compress B1 l1).length + (SpecCodec.compress B2 l2).length :=
    List.length_append _ _
  have hpos1 : 0 < (SpecCodec.compress B1 l1).length :=
    List.length_pos.mpr (SpecCodec.compress_ne_nil B1 l1)
  have hpos2 : 0 < (SpecCodec.compress B2 l2).length :=
    List.length_pos.mpr (SpecCodec.compress_ne_nil B2 l2)
  have step1 := SpecCodec.decompress_stream_step B1 l1 h11 h19 hB1
    (SpecCodec.compress B2 l2) hc2
    (SpecCodec.compress B1 l1 ++ SpecCodec.compress B2 l2).length
  rw [step1]
  have hN : (SpecCodec.compress B1 l1 ++ SpecCodec.compress B2 l2).length =
      ((SpecCodec.compress B1 l1 ++ SpecCodec.compress B2 l2).length - 1) + 1 := by
    rw [hlen]
    omega
  rw [hN]
  have step2 := SpecCodec.decompress_stream_step B2 l2 h21 h29 hB2 []
    (by intro b hb; cases hb)
    ((SpecCodec.compress B1 l1 ++ SpecCodec.compress B2 l2).length - 1)
  rw [List.append_nil] at step2
  rw [step2]
  have hposM : 0 < (SpecCodec.compress B1 l1 ++ SpecCodec.compress B2 l2).length - 1 := by
    rw [hlen]
    omega
  rw [SpecCodec.decompressGo_nil _ hposM]
  simp

/-- Concrete C2 instance: two tiny streams decompress back-to-back. -/
theorem C2_concat_streams_witness :
    ((1:Nat) ≤ 1 ∧ (9:Nat) ≤ 9 ∧ (∀ b ∈ ([7] : Bytes), b < 256) ∧
        ∀ b ∈ ([255, 0] : Bytes), b < 256) ∧
      SpecCodec.decompress (SpecCodec.compress [7] 1 ++ SpecCodec.compress [255, 0] 9) =
        some [7, 255, 0] :=
  ⟨⟨le_refl 1, le_refl 9, by decide, by decide⟩,
    C2_concat_streams [7] [255, 0] 1 9 (le_refl 1) (by norm_num) (by norm_num) (le_refl 9)
      (by decide) (by decide)⟩
